import Mathlib

/-!
Verification development for the price-tracking web application.

The file shallowly embeds the URL canonicalizer
(`src/app/api/products/lookup/route.ts`), the scrape trigger
(`src/lib/scraper/index.ts` and the scrape route), the analytics
report poll/trigger route and the report callback receiver, and proves
the behavioural claims about them.

Modelling conventions:
* JavaScript strings are modelled as `List Char` (inside the URL module)
  or `String`; `String.prototype.trim` is modelled by `trimL`, which
  removes ASCII whitespace from both ends (the inputs the routes handle
  are ASCII).
* The WHATWG `URL` constructor is modelled by `parseURLL`, restricted to
  the fragment of the grammar the route relies on:
  `scheme://host/path?query#fragment` splitting with host lower-casing.
  Userinfo, ports, percent-encoding and dot-segment normalisation are not
  modelled; inputs outside the modelled grammar make the constructor
  throw, which the route catches.
* `JSON.parse` is modelled by an executable recursive-descent parser
  `parseJson`; JSON numbers keep their raw digits (no floating point).
* Mongo stores are modelled as ordered lists of documents; `findOne`
  returns the first document matching the query, and
  `sort({createdAt:-1}).findOne` the earliest maximum of `createdAt`.
-/

namespace UrlCanon

/-- ASCII whitespace recognised by the model of `String.prototype.trim`. -/
def isWS (c : Char) : Bool :=
  c == ' ' || c == '\t' || c == '\n' || c == '\r'

/-- Model of `String.prototype.trim`: drop whitespace from both ends. -/
def trimL (l : List Char) : List Char :=
  ((l.dropWhile isWS).reverse.dropWhile isWS).reverse

/-- Does `l` start with `pat`? -/
def startsWithL : List Char → List Char → Bool
  | [], _ => true
  | _ :: _, [] => false
  | p :: ps, c :: cs => p = c && startsWithL ps cs

/-- Does `l` contain `pat` as a contiguous substring? -/
def containsL (pat : List Char) : List Char → Bool
  | [] => startsWithL pat []
  | l@(_ :: t) => startsWithL pat l || containsL pat t

/-- Everything before the first occurrence of `pat`
(model of `s.split(pat)[0]` when `pat` occurs in `s`). -/
def splitBeforeL (pat : List Char) : List Char → List Char
  | [] => []
  | l@(c :: t) => if startsWithL pat l then [] else c :: splitBeforeL pat t

/-- Model of `.replace(/\/$/, "")`: remove one trailing slash. -/
def stripSlashL (l : List Char) : List Char :=
  match l.reverse with
  | '/' :: t => t.reverse
  | _ => l

def isLowerAlpha (c : Char) : Bool := 'a' ≤ c && c ≤ 'z'
def isUpperAlpha (c : Char) : Bool := 'A' ≤ c && c ≤ 'Z'
def isDigitC (c : Char) : Bool := '0' ≤ c && c ≤ '9'

/-- Characters allowed inside a URL scheme by the model. -/
def isSchemeChar (c : Char) : Bool :=
  isLowerAlpha c || isUpperAlpha c || isDigitC c || c = '+' || c = '-' || c = '.'

/-- The parsed-URL record underlying the model of the WHATWG `URL` class.
`search` is `[]` or starts with `?`; `hash` is `[]` or starts with `#`;
`path` always starts with `/`. -/
structure URLRec where
  scheme : List Char
  host : List Char
  path : List Char
  search : List Char
  hash : List Char
deriving DecidableEq, Repr

/-- Model of `url.toString()` / `url.href`. -/
def serializeL (u : URLRec) : List Char :=
  u.scheme ++ (':' :: '/' :: '/' :: u.host) ++ u.path ++ u.search ++ u.hash

def serializeStr (u : URLRec) : String := String.mk (serializeL u)

/-- Characters the model rejects inside a host. -/
def badHostChar (c : Char) : Bool :=
  c = '@' || c = ':' || c = ' ' || c = '\\'

/-- Characters that end the authority (host) section. -/
def isAuthEnd (c : Char) : Bool := c == '/' || c == '?' || c == '#'

/-- Characters that end the path section. -/
def isPathEnd (c : Char) : Bool := c == '?' || c == '#'

/-- Model of `new URL(s)` restricted to the grammar the route relies on;
`none` models the constructor throwing. -/
def parseURLL (l : List Char) : Option URLRec :=
  let sch := l.takeWhile isSchemeChar
  let rest := l.dropWhile isSchemeChar
  if startsWithL "://".data rest then
    let rest2 := rest.drop 3
    if sch.isEmpty then none
    else if !(isLowerAlpha (sch.headD ' ') || isUpperAlpha (sch.headD ' ')) then none
    else
      let auth := rest2.takeWhile (fun c => !isAuthEnd c)
      let rest3 := rest2.dropWhile (fun c => !isAuthEnd c)
      if auth.isEmpty then none
      else if auth.any badHostChar then none
      else
        let host := auth.map Char.toLower
        let path0 := rest3.takeWhile (fun c => !isPathEnd c)
        let rest4 := rest3.dropWhile (fun c => !isPathEnd c)
        let path := if path0.isEmpty then ['/'] else path0
        if rest4.headD ' ' == '?' then
          some ⟨sch.map Char.toLower, host, path,
                '?' :: (rest4.drop 1).takeWhile (fun c => !(c == '#')),
                (rest4.drop 1).dropWhile (fun c => !(c == '#'))⟩
        else some ⟨sch.map Char.toLower, host, path, [], rest4⟩
  else none

/-- Model of the `pathname` setter used for the `/ref=` stripped variant:
an empty value yields the root path, a relative value gains a leading
slash, an absolute value is kept. -/
def setPathname (p : List Char) : List Char :=
  if p.isEmpty then ['/']
  else if p.headD ' ' == '/' then p
  else '/' :: p

/-- Host test from the source: `isAmazonLike`. -/
def isAmazonLike (host : List Char) : Bool :=
  containsL "amazon.".data host
    || host = "amzn.in".data
    || host = "amzn.to".data
    || startsWithL ".amazon".data.reverse host.reverse
    || startsWithL "www.amazon.".data host

/-- Consume `pat` case-insensitively from the front of `s`
(the `i` flag of the source regex). -/
def dropCI : List Char → List Char → Option (List Char)
  | [], s => some s
  | _ :: _, [] => none
  | p :: ps, c :: cs => if c.toLower = p.toLower then dropCI ps cs else none

/-- `[A-Z0-9]` under the `i` flag. -/
def isAsinChar (c : Char) : Bool :=
  isDigitC c || isLowerAlpha c.toLower

/-- After `/dp/` or `/gp/product/`: ten ASIN characters followed by `/`
or the end of the path (the `(?:\/|$)` group). -/
def asinTail (t : List Char) : Option (List Char) :=
  let asin := t.take 10
  let rest := t.drop 10
  if asin.length == 10 && asin.all isAsinChar
      && (rest.isEmpty || rest.headD ' ' == '/') then
    some asin
  else none

/-- Try the regex `\/(dp|gp\/product)\/([A-Z0-9]{10})(?:\/|$)/i` at the
start of `s`: alternative `dp` first (backtracking into `gp/product`
when the rest of the pattern fails), as the regex engine does. -/
def asinAt (s : List Char) : Option (List Char) :=
  match s with
  | c :: rest =>
    if c = '/' then
      match dropCI "dp/".data rest with
      | some t =>
        (match asinTail t with
         | some a => some a
         | none =>
           match dropCI "gp/product/".data rest with
           | some t' => asinTail t'
           | none => none)
      | none =>
        match dropCI "gp/product/".data rest with
        | some t' => asinTail t'
        | none => none
    else none
  | [] => none

/-- Leftmost match of the ASIN regex (group 2), as `String.match` finds it. -/
def asinScan : List Char → Option (List Char)
  | [] => none
  | s@(_ :: t) =>
    match asinAt s with
    | some a => some a
    | none => asinScan t

/-- `Set.prototype.add` on an insertion-ordered list. -/
def addCand (cs : List (List Char)) (x : List Char) : List (List Char) :=
  if x ∈ cs then cs else cs ++ [x]

/-- The part of the candidate construction inside the `try` block, entered
when `new URL(trimmed)` succeeded with parse result `u`.  The two
reassignments of the mutable `u` in the source (clearing `hash`, then
`search`) appear as the records `u1` and `u2`. -/
def candsParsed (trimmed : List Char) (u : URLRec) : List (List Char) :=
  let base : List (List Char) := if trimmed = [] then [] else [trimmed]
  let u1 : URLRec := { u with hash := [] }
  let c2 := addCand base (serializeL u1)
  let u2 : URLRec := { u with search := [], hash := [] }
  let c3 := addCand c2 (serializeL u2)
  let c4 := addCand c3 (stripSlashL (serializeL u2))
  let host := u.host.map Char.toLower
  let pathname := u.path
  if isAmazonLike host then
    let c5 :=
      match asinScan pathname with
      | some asinRaw =>
        let asin := asinRaw.map Char.toUpper
        let baseHost := if startsWithL "www.".data host then host.drop 4 else host
        addCand (addCand (addCand (addCand c4
          ("https://".data ++ baseHost ++ "/dp/".data ++ asin))
          ("https://www.".data ++ baseHost ++ "/dp/".data ++ asin))
          ("http://".data ++ baseHost ++ "/dp/".data ++ asin))
          ("http://www.".data ++ baseHost ++ "/dp/".data ++ asin)
      | none => c4
    if containsL "/ref=".data pathname then
      let strippedPath := splitBeforeL "/ref=".data pathname
      let u3 : URLRec := { u2 with path := setPathname strippedPath }
      addCand c5 (stripSlashL (serializeL u3))
    else c5
  else c4

/-- The candidate list built by `buildUrlCandidates`, over `List Char`.
Direct translation of `src/app/api/products/lookup/route.ts` lines 8-62;
the argument is the already-trimmed input. -/
def candsL (trimmed : List Char) : List (List Char) :=
  let base : List (List Char) := if trimmed = [] then [] else [trimmed]
  let all :=
    match parseURLL trimmed with
    | none => base
    | some u => candsParsed trimmed u
  all.filter (fun c => !c.isEmpty)

/-- `buildUrlCandidates` from `src/app/api/products/lookup/route.ts`. -/
def buildUrlCandidates (input : String) : List String :=
  (candsL (trimL input.data)).map String.mk

/-! Character-level facts about the ASCII case maps. -/

lemma charToNat_ofNat_of_le {n : Nat} (h : n ≤ 1000) : (Char.ofNat n).toNat = n := by
  unfold Char.ofNat
  rw [dif_pos]
  · rfl
  · unfold Nat.isValidChar; left; omega

lemma toUpper_toLower (c : Char) : c.toLower.toUpper = c.toUpper := by
  unfold Char.toLower
  by_cases h : c.toNat ≥ 65 ∧ c.toNat ≤ 90
  · rw [if_pos h]
    have ht : (Char.ofNat (c.toNat + 32)).toNat = c.toNat + 32 :=
      charToNat_ofNat_of_le (by omega)
    unfold Char.toUpper
    rw [if_pos (by omega), if_neg (by omega), ht]
    have h32 : c.toNat + 32 - 32 = c.toNat := by omega
    rw [h32, Char.ofNat_toNat]
  · rw [if_neg h]

lemma toLower_toLower (c : Char) : c.toLower.toLower = c.toLower := by
  unfold Char.toLower
  by_cases h : c.toNat ≥ 65 ∧ c.toNat ≤ 90
  · rw [if_pos h]
    have ht : (Char.ofNat (c.toNat + 32)).toNat = c.toNat + 32 :=
      charToNat_ofNat_of_le (by omega)
    rw [if_neg (by omega)]
  · rw [if_neg h, if_neg h]

lemma toLower_eq_self_of_not_upper {c : Char} (h : ¬ (65 ≤ c.toNat ∧ c.toNat ≤ 90)) :
    c.toLower = c := by
  unfold Char.toLower
  rw [if_neg (by omega)]

lemma le_char_iff_toNat {a c : Char} : a ≤ c ↔ a.toNat ≤ c.toNat :=
  ⟨fun h => by exact_mod_cast h, fun h => by exact_mod_cast h⟩

lemma isLowerAlpha_toNat {c : Char} (h : isLowerAlpha c = true) :
    97 ≤ c.toNat ∧ c.toNat ≤ 122 := by
  simp only [isLowerAlpha, Bool.and_eq_true, decide_eq_true_eq] at h
  exact ⟨le_char_iff_toNat.mp h.1, le_char_iff_toNat.mp h.2⟩

lemma isDigitC_toNat {c : Char} (h : isDigitC c = true) :
    48 ≤ c.toNat ∧ c.toNat ≤ 57 := by
  simp only [isDigitC, Bool.and_eq_true, decide_eq_true_eq] at h
  exact ⟨le_char_iff_toNat.mp h.1, le_char_iff_toNat.mp h.2⟩

lemma toLower_of_isLowerAlpha {c : Char} (h : isLowerAlpha c = true) :
    c.toLower = c := by
  have := isLowerAlpha_toNat h
  exact toLower_eq_self_of_not_upper (by omega)

lemma toLower_of_isDigit {c : Char} (h : isDigitC c = true) :
    c.toLower = c := by
  have := isDigitC_toNat h
  exact toLower_eq_self_of_not_upper (by omega)

/-- Characters allowed in a well-formed host. -/
def isHostChar (c : Char) : Bool :=
  isLowerAlpha c || isDigitC c || c = '.' || c = '-'

lemma toLower_of_isHostChar {c : Char} (h : isHostChar c = true) :
    c.toLower = c := by
  simp only [isHostChar, Bool.or_eq_true, decide_eq_true_eq] at h
  rcases h with ((h | h) | h) | h
  · exact toLower_of_isLowerAlpha h
  · exact toLower_of_isDigit h
  · subst h; rfl
  · subst h; rfl

/-! List-level helper lemmas. -/

lemma takeWhile_append_all {p : Char → Bool} {l₁ l₂ : List Char}
    (h₁ : ∀ c ∈ l₁, p c = true) :
    (l₁ ++ l₂).takeWhile p = l₁ ++ l₂.takeWhile p := by
  induction l₁ with
  | nil => simp
  | cons c t ih =>
    have hc : p c = true := h₁ c (by simp)
    simp only [List.cons_append, List.takeWhile_cons, hc, if_true]
    simpa using ih (fun c hc => h₁ c (by simp [hc]))

lemma dropWhile_append_all {p : Char → Bool} {l₁ l₂ : List Char}
    (h₁ : ∀ c ∈ l₁, p c = true) :
    (l₁ ++ l₂).dropWhile p = l₂.dropWhile p := by
  induction l₁ with
  | nil => simp
  | cons c t ih =>
    have hc : p c = true := h₁ c (by simp)
    simp only [List.cons_append, List.dropWhile_cons, hc, if_true]
    exact ih (fun c hc => h₁ c (by simp [hc]))

lemma takeWhile_eq_self {p : Char → Bool} {l : List Char}
    (h : ∀ c ∈ l, p c = true) : l.takeWhile p = l := by
  induction l with
  | nil => rfl
  | cons c t ih =>
    have hc : p c = true := h c (by simp)
    simp only [List.takeWhile_cons, hc, if_true]
    rw [ih (fun c hc => h c (by simp [hc]))]

lemma dropWhile_eq_nil {p : Char → Bool} {l : List Char}
    (h : ∀ c ∈ l, p c = true) : l.dropWhile p = [] := by
  induction l with
  | nil => rfl
  | cons c t ih =>
    have hc : p c = true := h c (by simp)
    simp only [List.dropWhile_cons, hc, if_true]
    exact ih (fun c hc => h c (by simp [hc]))

lemma takeWhile_cons_false {p : Char → Bool} {c : Char} {l : List Char}
    (h : p c = false) : (c :: l).takeWhile p = [] := by
  simp [List.takeWhile_cons, h]

lemma dropWhile_cons_false {p : Char → Bool} {c : Char} {l : List Char}
    (h : p c = false) : (c :: l).dropWhile p = c :: l := by
  simp [List.dropWhile_cons, h]

lemma dropWhile_eq_self_of_head {p : Char → Bool} {l : List Char}
    (h : ∀ c ∈ l.take 1, p c = false) : l.dropWhile p = l := by
  cases l with
  | nil => rfl
  | cons c t => exact dropWhile_cons_false (h c (by simp))

lemma trimL_eq_self {l : List Char} (h : ∀ c ∈ l, isWS c = false) :
    trimL l = l := by
  unfold trimL
  rw [dropWhile_eq_self_of_head (fun c hc => h c (List.mem_of_mem_take hc)),
      dropWhile_eq_self_of_head
        (fun c hc => h c (by
          have := List.mem_of_mem_take hc
          exact List.mem_reverse.mp this)),
      List.reverse_reverse]

lemma map_toLower_fix {l : List Char} (h : ∀ c ∈ l, c.toLower = c) :
    l.map Char.toLower = l := by
  induction l with
  | nil => rfl
  | cons c t ih =>
    simp only [List.map_cons, h c (by simp)]
    rw [ih (fun c hc => h c (by simp [hc]))]

/-! Well-formed URL records: those the model serializer and parser
round-trip, covering the URLs the canonicalizer claims are about. -/

def wfURL (u : URLRec) : Bool :=
  !u.scheme.isEmpty && u.scheme.all isLowerAlpha
    && !u.host.isEmpty && u.host.all isHostChar
    && !u.path.isEmpty && (u.path.headD ' ' == '/')
    && u.path.all (fun c => !(isPathEnd c || isWS c))
    && (u.search.isEmpty || u.search.headD ' ' == '?')
    && u.search.all (fun c => !(c == '#' || isWS c))
    && (u.hash.isEmpty || u.hash.headD ' ' == '#')
    && u.hash.all (fun c => !isWS c)

lemma isSchemeChar_of_lower {c : Char} (h : isLowerAlpha c = true) :
    isSchemeChar c = true := by
  simp [isSchemeChar, h]

lemma not_ws_of_lower {c : Char} (h : isLowerAlpha c = true) : isWS c = false := by
  have := isLowerAlpha_toNat h
  simp only [isWS, Bool.or_eq_false_iff, beq_eq_false_iff_ne, ne_eq]
  refine ⟨⟨⟨?_, ?_⟩, ?_⟩, ?_⟩ <;> (intro he; subst he; revert this; decide)

lemma not_ws_of_hostChar {c : Char} (h : isHostChar c = true) : isWS c = false := by
  simp only [isHostChar, Bool.or_eq_true, decide_eq_true_eq] at h
  rcases h with ((h | h) | h) | h
  · exact not_ws_of_lower h
  · have := isDigitC_toNat h
    simp only [isWS, Bool.or_eq_false_iff, beq_eq_false_iff_ne, ne_eq]
    refine ⟨⟨⟨?_, ?_⟩, ?_⟩, ?_⟩ <;> (intro he; subst he; revert this; decide)
  · subst h; rfl
  · subst h; rfl

lemma not_authEnd_of_hostChar {c : Char} (h : isHostChar c = true) :
    isAuthEnd c = false := by
  simp only [isHostChar, Bool.or_eq_true, decide_eq_true_eq] at h
  simp only [isAuthEnd, Bool.or_eq_false_iff, beq_eq_false_iff_ne, ne_eq]
  rcases h with ((h | h) | h) | h
  · have := isLowerAlpha_toNat h
    refine ⟨⟨?_, ?_⟩, ?_⟩ <;> (intro he; subst he; revert this; decide)
  · have := isDigitC_toNat h
    refine ⟨⟨?_, ?_⟩, ?_⟩ <;> (intro he; subst he; revert this; decide)
  · subst h; decide
  · subst h; decide

lemma not_bad_of_hostChar {c : Char} (h : isHostChar c = true) :
    badHostChar c = false := by
  simp only [isHostChar, Bool.or_eq_true, decide_eq_true_eq] at h
  simp only [badHostChar, Bool.or_eq_false_iff, decide_eq_false_iff_not]
  rcases h with ((h | h) | h) | h
  · have := isLowerAlpha_toNat h
    refine ⟨⟨⟨?_, ?_⟩, ?_⟩, ?_⟩ <;> (intro he; subst he; revert this; decide)
  · have := isDigitC_toNat h
    refine ⟨⟨⟨?_, ?_⟩, ?_⟩, ?_⟩ <;> (intro he; subst he; revert this; decide)
  · subst h; decide
  · subst h; decide


lemma wf_parts {u : URLRec} (h : wfURL u = true) :
    u.scheme ≠ [] ∧ (∀ c ∈ u.scheme, isLowerAlpha c = true) ∧
    u.host ≠ [] ∧ (∀ c ∈ u.host, isHostChar c = true) ∧
    u.path ≠ [] ∧ u.path.headD ' ' = '/' ∧
    (∀ c ∈ u.path, (isPathEnd c || isWS c) = false) ∧
    (u.search = [] ∨ u.search.headD ' ' = '?') ∧
    (∀ c ∈ u.search, ((c == '#') || isWS c) = false) ∧
    (u.hash = [] ∨ u.hash.headD ' ' = '#') ∧
    (∀ c ∈ u.hash, isWS c = false) := by
  simp only [wfURL, Bool.and_eq_true, Bool.not_eq_true', List.isEmpty_eq_false,
    List.all_eq_true, Bool.or_eq_true, List.isEmpty_iff, beq_iff_eq,
    Bool.not_eq_true] at h
  tauto

theorem parse_serialize {u : URLRec} (h : wfURL u = true) :
    parseURLL (serializeL u) = some u := by
  obtain ⟨hs1, hs2, hh1, hh2, hp1, hp2, hp3, hq1, hq2, hf1, hf2⟩ := wf_parts h
  have hserl : serializeL u =
      u.scheme ++ (':' :: '/' :: '/' :: (u.host ++ (u.path ++ (u.search ++ u.hash)))) := by
    simp [serializeL]
  have e1 : (serializeL u).takeWhile isSchemeChar = u.scheme := by
    rw [hserl, takeWhile_append_all (fun c hc => isSchemeChar_of_lower (hs2 c hc)),
        takeWhile_cons_false (by decide)]
    simp
  have e2 : (serializeL u).dropWhile isSchemeChar =
      ':' :: '/' :: '/' :: (u.host ++ (u.path ++ (u.search ++ u.hash))) := by
    rw [hserl, dropWhile_append_all (fun c hc => isSchemeChar_of_lower (hs2 c hc)),
        dropWhile_cons_false (by decide)]
  obtain ⟨pt, hpeq⟩ : ∃ t, u.path = '/' :: t := by
    cases hu : u.path with
    | nil => exact absurd hu hp1
    | cons c t =>
      refine ⟨t, ?_⟩
      rw [hu] at hp2
      simp only [List.headD_cons] at hp2
      rw [hp2]
  have hhostPred : ∀ c ∈ u.host, (!isAuthEnd c) = true := by
    intro c hc
    simp [not_authEnd_of_hostChar (hh2 c hc)]
  have hpathPred : ∀ c ∈ u.path, (!isPathEnd c) = true := by
    intro c hc
    have := hp3 c hc
    simp only [Bool.or_eq_false_iff] at this
    simp [this.1]
  have e3take : (u.host ++ (u.path ++ (u.search ++ u.hash))).takeWhile
      (fun c => !isAuthEnd c) = u.host := by
    rw [takeWhile_append_all hhostPred, hpeq]
    simp only [List.cons_append]
    rw [takeWhile_cons_false (by decide)]
    simp
  have e3drop : (u.host ++ (u.path ++ (u.search ++ u.hash))).dropWhile
      (fun c => !isAuthEnd c) = u.path ++ (u.search ++ u.hash) := by
    rw [dropWhile_append_all hhostPred, hpeq]
    simp only [List.cons_append]
    rw [dropWhile_cons_false (by decide)]
  have etail : (u.search ++ u.hash).takeWhile (fun c => !isPathEnd c) = []
      ∧ (u.search ++ u.hash).dropWhile (fun c => !isPathEnd c) = u.search ++ u.hash := by
    rcases hq1 with hq | hq
    · rw [hq]
      simp only [List.nil_append]
      cases hfu : u.hash with
      | nil => exact ⟨rfl, rfl⟩
      | cons c t =>
        rcases hf1 with hf | hf
        · rw [hfu] at hf; cases hf
        · rw [hfu] at hf
          simp only [List.headD_cons] at hf
          subst hf
          refine ⟨takeWhile_cons_false ?_, dropWhile_cons_false ?_⟩ <;> decide
    · cases hqu : u.search with
      | nil => rw [hqu] at hq; simp at hq
      | cons c t =>
        rw [hqu] at hq
        simp only [List.headD_cons] at hq
        subst hq
        simp only [List.cons_append]
        refine ⟨takeWhile_cons_false ?_, dropWhile_cons_false ?_⟩ <;> decide
  have e4take : (u.path ++ (u.search ++ u.hash)).takeWhile (fun c => !isPathEnd c)
      = u.path := by
    rw [takeWhile_append_all hpathPred, etail.1]
    simp
  have e4drop : (u.path ++ (u.search ++ u.hash)).dropWhile (fun c => !isPathEnd c)
      = u.search ++ u.hash := by
    rw [dropWhile_append_all hpathPred, etail.2]
  have hschemeMap : u.scheme.map Char.toLower = u.scheme :=
    map_toLower_fix (fun c hc => toLower_of_isLowerAlpha (hs2 c hc))
  have hhostMap : u.host.map Char.toLower = u.host :=
    map_toLower_fix (fun c hc => toLower_of_isHostChar (hh2 c hc))
  have hheadAlpha : isLowerAlpha (u.scheme.headD ' ') = true := by
    cases hsu : u.scheme with
    | nil => exact absurd hsu hs1
    | cons c t =>
      simp only [List.headD_cons]
      exact hs2 c (by rw [hsu]; simp)
  simp only [parseURLL]
  rw [e1, e2]
  rw [if_pos (show startsWithL "://".data
      (':' :: '/' :: '/' :: (u.host ++ (u.path ++ (u.search ++ u.hash)))) = true by
    simp [startsWithL])]
  simp only [List.drop_succ_cons, List.drop_zero]
  rw [if_neg (show ¬ u.scheme.isEmpty = true by simp [List.isEmpty_iff, hs1])]
  rw [if_neg (show ¬ (!(isLowerAlpha (u.scheme.headD ' ')
      || isUpperAlpha (u.scheme.headD ' '))) = true by
    simp only [hheadAlpha, Bool.true_or, Bool.not_true]
    simp)]
  rw [e3take, e3drop]
  rw [if_neg (show ¬ u.host.isEmpty = true by simp [List.isEmpty_iff, hh1])]
  rw [if_neg (show ¬ u.host.any badHostChar = true by
    simp only [List.any_eq_true, not_exists, not_and]
    intro c hc
    simp [not_bad_of_hostChar (hh2 c hc)])]
  rw [e4take, e4drop]
  rw [if_neg (show ¬ u.path.isEmpty = true by simp [List.isEmpty_iff, hp1])]
  rcases hq1 with hq | hq
  · rw [hq]
    simp only [List.nil_append]
    rw [if_neg (show ¬ (u.hash.headD ' ' == '?') = true by
      rcases hf1 with hf | hf
      · rw [hf]; decide
      · rw [hf]; decide)]
    rw [hschemeMap, hhostMap, ← hq]
  · cases hqu : u.search with
    | nil => rw [hqu] at hq; simp at hq
    | cons c t =>
      rw [hqu] at hq
      simp only [List.headD_cons] at hq
      subst hq
      simp only [List.cons_append, List.headD_cons]
      rw [if_pos (by decide)]
      simp only [List.drop_succ_cons, List.drop_zero]
      have hqtail : ∀ x ∈ t, (!(x == '#')) = true := by
        intro x hx
        have := hq2 x (by rw [hqu]; simp [hx])
        simp only [Bool.or_eq_false_iff] at this
        simp [this.1]
      have etq : (t ++ u.hash).takeWhile (fun c => !(c == '#')) = t := by
        rw [takeWhile_append_all hqtail]
        cases hfu : u.hash with
        | nil => simp
        | cons d s =>
          rcases hf1 with hf | hf
          · rw [hfu] at hf; cases hf
          · rw [hfu] at hf
            simp only [List.headD_cons] at hf
            subst hf
            rw [takeWhile_cons_false (by decide)]
            simp
      have edq : (t ++ u.hash).dropWhile (fun c => !(c == '#')) = u.hash := by
        rw [dropWhile_append_all hqtail]
        cases hfu : u.hash with
        | nil => rfl
        | cons d s =>
          rcases hf1 with hf | hf
          · rw [hfu] at hf; cases hf
          · rw [hfu] at hf
            simp only [List.headD_cons] at hf
            subst hf
            exact dropWhile_cons_false (by decide)
      rw [etq, edq, hschemeMap, hhostMap, ← hqu]

/-! Membership facts about the candidate construction. -/

lemma mem_addCand_self (cs : List (List Char)) (x : List Char) :
    x ∈ addCand cs x := by
  unfold addCand
  split
  · assumption
  · simp

lemma mem_addCand_of_mem {cs : List (List Char)} {x : List Char}
    (y : List Char) (h : x ∈ cs) : x ∈ addCand cs y := by
  unfold addCand
  split
  · exact h
  · simp [h]

lemma candsL_parsed {t : List Char} {u : URLRec} (hp : parseURLL t = some u) :
    candsL t = (candsParsed t u).filter (fun c => !c.isEmpty) := by
  unfold candsL
  rw [hp]

lemma candsL_none {t : List Char} (hp : parseURLL t = none) :
    candsL t = (if t = [] then [] else [t]).filter (fun c => !c.isEmpty) := by
  unfold candsL
  rw [hp]

lemma serializeL_ne_nil {u : URLRec} (h : wfURL u = true) : serializeL u ≠ [] := by
  obtain ⟨hs1, -⟩ := wf_parts h
  unfold serializeL
  cases hu : u.scheme with
  | nil => exact absurd hu hs1
  | cons c t => simp

lemma serializeL_not_ws {u : URLRec} (h : wfURL u = true) :
    ∀ c ∈ serializeL u, isWS c = false := by
  obtain ⟨hs1, hs2, hh1, hh2, hp1, hp2, hp3, hq1, hq2, hf1, hf2⟩ := wf_parts h
  intro c hc
  rw [show serializeL u = u.scheme
      ++ (':' :: '/' :: '/' :: (u.host ++ (u.path ++ (u.search ++ u.hash))))
      by simp [serializeL]] at hc
  simp only [List.mem_append, List.mem_cons] at hc
  rcases hc with hc | rfl | rfl | rfl | hc | hc | hc | hc
  · exact not_ws_of_lower (hs2 c hc)
  · rfl
  · rfl
  · rfl
  · exact not_ws_of_hostChar (hh2 c hc)
  · have := hp3 c hc
    simp only [Bool.or_eq_false_iff] at this
    exact this.2
  · have := hq2 c hc
    simp only [Bool.or_eq_false_iff] at this
    exact this.2
  · exact hf2 c hc

lemma trimL_serializeL {u : URLRec} (h : wfURL u = true) :
    trimL (serializeL u) = serializeL u :=
  trimL_eq_self (serializeL_not_ws h)

/-- The query-and-hash-cleared record has a well-formed serialization
that also never starts or ends in whitespace. -/
lemma wf_clear_hash {u : URLRec} (h : wfURL u = true) :
    wfURL { u with hash := [] } = true := by
  simp only [wfURL, Bool.and_eq_true] at h ⊢
  exact ⟨⟨h.1.1, by simp⟩, by simp⟩

lemma wf_clear_both {u : URLRec} (h : wfURL u = true) :
    wfURL { u with search := [], hash := [] } = true := by
  simp only [wfURL, Bool.and_eq_true] at h ⊢
  exact ⟨⟨⟨⟨h.1.1.1.1, by simp⟩, by simp⟩, by simp⟩, by simp⟩

/-- Any element of the pre-Amazon candidate chain is a candidate. -/
lemma mem_candsParsed_base {t : List Char} {u : URLRec} {x : List Char}
    (hx : x ∈ addCand (addCand (addCand (if t = [] then [] else [t])
        (serializeL { u with hash := [] }))
        (serializeL { u with search := [], hash := [] }))
        (stripSlashL (serializeL { u with search := [], hash := [] }))) :
    x ∈ candsParsed t u := by
  simp only [candsParsed]
  by_cases ha : isAmazonLike (u.host.map Char.toLower) = true
  · rw [if_pos ha]
    by_cases hr : containsL "/ref=".data u.path = true
    · rw [if_pos hr]
      apply mem_addCand_of_mem
      cases hscan : asinScan u.path with
      | some a =>
        exact mem_addCand_of_mem _ (mem_addCand_of_mem _ (mem_addCand_of_mem _
          (mem_addCand_of_mem _ hx)))
      | none => exact hx
    · rw [if_neg hr]
      cases hscan : asinScan u.path with
      | some a =>
        exact mem_addCand_of_mem _ (mem_addCand_of_mem _ (mem_addCand_of_mem _
          (mem_addCand_of_mem _ hx)))
      | none => exact hx
  · rw [if_neg ha]
    exact hx

lemma mem_addCand_four {cs : List (List Char)} {x f1 f2 f3 f4 : List Char}
    (hx : x = f1 ∨ x = f2 ∨ x = f3 ∨ x = f4) :
    x ∈ addCand (addCand (addCand (addCand cs f1) f2) f3) f4 := by
  rcases hx with rfl | rfl | rfl | rfl
  · exact mem_addCand_of_mem _ (mem_addCand_of_mem _ (mem_addCand_of_mem _
      (mem_addCand_self _ _)))
  · exact mem_addCand_of_mem _ (mem_addCand_of_mem _ (mem_addCand_self _ _))
  · exact mem_addCand_of_mem _ (mem_addCand_self _ _)
  · exact mem_addCand_self _ _

/-- The four canonical `/dp/<ASIN>` forms synthesized for an Amazon-like
host, in the insertion order of the source. -/
def dpFormsL (host asinU : List Char) : List (List Char) :=
  let baseHost := if startsWithL "www.".data host then host.drop 4 else host
  [ "https://".data ++ baseHost ++ "/dp/".data ++ asinU,
    "https://www.".data ++ baseHost ++ "/dp/".data ++ asinU,
    "http://".data ++ baseHost ++ "/dp/".data ++ asinU,
    "http://www.".data ++ baseHost ++ "/dp/".data ++ asinU ]

lemma mem_candsParsed_asin {t : List Char} {u : URLRec} {a x : List Char}
    (ha : isAmazonLike (u.host.map Char.toLower) = true)
    (hscan : asinScan u.path = some a)
    (hx : x ∈ dpFormsL (u.host.map Char.toLower) (a.map Char.toUpper)) :
    x ∈ candsParsed t u := by
  simp only [dpFormsL, List.mem_cons, List.not_mem_nil, or_false] at hx
  simp only [candsParsed]
  rw [if_pos ha, hscan]
  by_cases hr : containsL "/ref=".data u.path = true
  · rw [if_pos hr]
    exact mem_addCand_of_mem _ (mem_addCand_four hx)
  · rw [if_neg hr]
    exact mem_addCand_four hx

lemma mem_candsParsed_ref {t : List Char} {u : URLRec}
    (ha : isAmazonLike (u.host.map Char.toLower) = true)
    (hr : containsL "/ref=".data u.path = true) :
    stripSlashL (serializeL { u with
        path := setPathname (splitBeforeL "/ref=".data u.path),
        search := [], hash := [] }) ∈ candsParsed t u := by
  simp only [candsParsed]
  rw [if_pos ha, if_pos hr]
  exact mem_addCand_self _ _

/-! Lifting membership to `buildUrlCandidates`. -/

lemma mem_build_of_mem_cands {u : URLRec} {x : List Char} (h : wfURL u = true)
    (hx : x ∈ candsParsed (serializeL u) u) (hne : x ≠ []) :
    String.mk x ∈ buildUrlCandidates (serializeStr u) := by
  unfold buildUrlCandidates serializeStr
  rw [show (String.mk (serializeL u)).data = serializeL u from rfl,
      trimL_serializeL h, candsL_parsed (parse_serialize h)]
  refine List.mem_map_of_mem _ (List.mem_filter.mpr ⟨hx, ?_⟩)
  simp [List.isEmpty_iff, hne]

lemma stripSlashL_cons_ne_nil {c : Char} {t : List Char} (ht : t ≠ []) :
    stripSlashL (c :: t) ≠ [] := by
  intro hcontra
  unfold stripSlashL at hcontra
  split at hcontra
  case _ r heq =>
    have hr : r = [] := List.reverse_eq_nil_iff.mp hcontra
    subst hr
    have hct : c :: t = ['/'] := by
      have := congrArg List.reverse heq
      simpa using this
    injection hct with h1 h2
    exact ht h2
  case _ => exact absurd hcontra (by simp)

lemma serializeL_cons {u : URLRec} (hs : u.scheme ≠ []) :
    ∃ c t, serializeL u = c :: t ∧ t ≠ [] := by
  cases hu : u.scheme with
  | nil => exact absurd hu hs
  | cons c s =>
    refine ⟨c, s ++ (':' :: '/' :: '/' :: u.host) ++ u.path ++ u.search ++ u.hash, ?_, ?_⟩
    · simp [serializeL, hu]
    · simp

/-! Facts about `startsWithL`, `containsL` and `splitBeforeL`, used for
the `/ref=` tracking-segment reasoning. -/

lemma startsWithL_append_self (pat y : List Char) :
    startsWithL pat (pat ++ y) = true := by
  induction pat with
  | nil => rfl
  | cons p ps ih => simp [startsWithL, ih]

lemma startsWithL_length_le {pat l : List Char}
    (h : startsWithL pat l = true) : pat.length ≤ l.length := by
  induction pat generalizing l with
  | nil => simp
  | cons p ps ih =>
    cases l with
    | nil => simp [startsWithL] at h
    | cons c t =>
      simp only [startsWithL, Bool.and_eq_true] at h
      have := ih h.2
      simp only [List.length_cons]
      omega

lemma startsWithL_mono_append {pat l : List Char} (y : List Char)
    (h : startsWithL pat l = true) : startsWithL pat (l ++ y) = true := by
  induction pat generalizing l with
  | nil => rfl
  | cons p ps ih =>
    cases l with
    | nil => simp [startsWithL] at h
    | cons c t =>
      simp only [startsWithL, Bool.and_eq_true] at h
      simp only [List.cons_append, startsWithL, Bool.and_eq_true]
      exact ⟨h.1, ih h.2⟩

lemma startsWithL_append_of_longer {pat l : List Char} (y : List Char)
    (hlen : pat.length ≤ l.length) :
    startsWithL pat (l ++ y) = startsWithL pat l := by
  induction pat generalizing l with
  | nil => rfl
  | cons p ps ih =>
    cases l with
    | nil => simp at hlen
    | cons c t =>
      simp only [List.cons_append, startsWithL]
      rw [List.append_eq, ih (by simpa using hlen)]

lemma startsWithL_append_split {pat l m : List Char}
    (h : startsWithL pat (l ++ m) = true) (hlen : l.length < pat.length) :
    startsWithL (pat.drop l.length) m = true := by
  induction l generalizing pat with
  | nil => simpa using h
  | cons c t ih =>
    cases pat with
    | nil => simp at hlen
    | cons p ps =>
      simp only [List.cons_append, startsWithL, Bool.and_eq_true] at h
      simpa using ih h.2 (by simpa using hlen)

lemma startsWithL_of_append_le {q pat y : List Char}
    (h : startsWithL q (pat ++ y) = true) (hlen : q.length ≤ pat.length) :
    startsWithL q pat = true := by
  induction q generalizing pat with
  | nil => rfl
  | cons a as ih =>
    cases pat with
    | nil => simp at hlen
    | cons p ps =>
      simp only [List.cons_append, startsWithL, Bool.and_eq_true] at h
      simp only [startsWithL, Bool.and_eq_true]
      exact ⟨h.1, ih h.2 (by simpa using hlen)⟩

lemma containsL_cons (pat : List Char) (c : Char) (t : List Char) :
    containsL pat (c :: t) = (startsWithL pat (c :: t) || containsL pat t) := rfl

lemma splitBeforeL_cons (pat : List Char) (c : Char) (t : List Char) :
    splitBeforeL pat (c :: t)
      = if startsWithL pat (c :: t) then [] else c :: splitBeforeL pat t := rfl

lemma containsL_length_le {pat l : List Char}
    (h : containsL pat l = true) : pat.length ≤ l.length := by
  induction l with
  | nil =>
    cases pat with
    | nil => simp
    | cons p ps => simp [containsL, startsWithL] at h
  | cons c t ih =>
    rw [containsL_cons, Bool.or_eq_true] at h
    rcases h with h | h
    · exact startsWithL_length_le h
    · have := ih h
      simp only [List.length_cons]
      omega

lemma containsL_append_pat (pat x y : List Char) (hpat : pat ≠ []) :
    containsL pat (x ++ (pat ++ y)) = true := by
  induction x with
  | nil =>
    simp only [List.nil_append]
    cases hp : pat with
    | nil => exact absurd hp hpat
    | cons p ps =>
      rw [← hp, show pat ++ y = p :: (ps ++ y) by rw [hp]; simp,
          containsL_cons, ← show pat ++ y = p :: (ps ++ y) by rw [hp]; simp,
          startsWithL_append_self]
      rfl
  | cons c t ih =>
    simp only [List.cons_append]
    rw [containsL_cons, ih]
    simp

lemma splitBeforeL_startsWith {pat l : List Char}
    (h : startsWithL pat l = true) (hpat : pat ≠ []) :
    splitBeforeL pat l = [] := by
  cases l with
  | nil =>
    cases hp : pat with
    | nil => exact absurd hp hpat
    | cons p ps => rw [hp] at h; simp [startsWithL] at h
  | cons c t => rw [splitBeforeL_cons, if_pos h]

lemma splitBeforeL_append_of_contains {pat x : List Char} (y : List Char)
    (hc : containsL pat x = true) :
    splitBeforeL pat (x ++ y) = splitBeforeL pat x := by
  induction x with
  | nil =>
    have hp : pat = [] := by
      cases hp : pat with
      | nil => rfl
      | cons p ps => rw [hp] at hc; simp [containsL, startsWithL] at hc
    subst hp
    cases y with
    | nil => rfl
    | cons c t =>
      simp only [List.nil_append]
      rw [splitBeforeL_cons]
      simp [startsWithL, splitBeforeL]
  | cons c t ih =>
    by_cases hs : startsWithL pat (c :: t) = true
    · have hs2 : startsWithL pat (c :: (t ++ y)) = true := by
        have := startsWithL_mono_append y hs
        simpa using this
      rw [show (c :: t) ++ y = c :: (t ++ y) from by simp, splitBeforeL_cons,
          if_pos hs2, splitBeforeL_cons, if_pos hs]
    · rw [containsL_cons, Bool.or_eq_true] at hc
      rcases hc with hc | hc
      · exact absurd hc hs
      · have hlen : pat.length ≤ (c :: t).length := by
          have := containsL_length_le hc
          simp only [List.length_cons]
          omega
        have hs2 : ¬ startsWithL pat (c :: (t ++ y)) = true := by
          have heq : startsWithL pat ((c :: t) ++ y) = startsWithL pat (c :: t) :=
            startsWithL_append_of_longer y hlen
          simp only [List.cons_append] at heq
          rw [heq]
          exact hs
        rw [show (c :: t) ++ y = c :: (t ++ y) from by simp, splitBeforeL_cons,
            if_neg hs2, splitBeforeL_cons, if_neg hs, ih hc]

/-- `pat` cannot occur starting strictly inside one of its own copies:
no proper suffix of `pat` obtained by dropping `k` characters
(`0 < k < pat.length`) starts another occurrence of `pat`. -/
def noSelfOverlap (pat : List Char) : Bool :=
  (List.range pat.length).all (fun k => k == 0 || !startsWithL (pat.drop k) pat)

lemma splitBeforeL_boundary {pat x : List Char} (y : List Char) (hpat : pat ≠ [])
    (hov : noSelfOverlap pat = true) (hnc : containsL pat x = false) :
    splitBeforeL pat (x ++ (pat ++ y)) = x := by
  induction x with
  | nil =>
    simpa using splitBeforeL_startsWith (startsWithL_append_self pat y) hpat
  | cons c t ih =>
    rw [containsL_cons, Bool.or_eq_false_iff] at hnc
    have hhead : ¬ startsWithL pat (c :: (t ++ (pat ++ y))) = true := by
      by_cases hlen : pat.length ≤ (c :: t).length
      · have heq : startsWithL pat ((c :: t) ++ (pat ++ y))
            = startsWithL pat (c :: t) := startsWithL_append_of_longer _ hlen
        simp only [List.cons_append] at heq
        rw [heq, hnc.1]
        simp
      · push_neg at hlen
        intro hcon
        have hcon2 : startsWithL pat ((c :: t) ++ (pat ++ y)) = true := by
          simpa using hcon
        have hdrop := startsWithL_append_split hcon2 hlen
        have hle : (pat.drop (c :: t).length).length ≤ pat.length := by
          simp
        have hsw : startsWithL (pat.drop (c :: t).length) pat = true :=
          startsWithL_of_append_le hdrop hle
        have hk : (c :: t).length ∈ List.range pat.length :=
          List.mem_range.mpr hlen
        have hall := (List.all_eq_true.mp hov) _ hk
        rw [Bool.or_eq_true] at hall
        rcases hall with hbad | hbad
        · simp at hbad
        · rw [hsw] at hbad
          simp at hbad
    rw [show (c :: t) ++ (pat ++ y) = c :: (t ++ (pat ++ y)) from by simp,
        splitBeforeL_cons, if_neg hhead, ih hnc.2]

lemma stripSlashL_append_slash (l : List Char) : stripSlashL (l ++ ['/']) = l := by
  unfold stripSlashL
  rw [List.reverse_append]
  simp

lemma setPathname_of_slash {p : List Char} (hne : p ≠ []) (hh : p.headD ' ' = '/') :
    setPathname p = p := by
  unfold setPathname
  rw [if_neg (by simp [List.isEmpty_iff, hne]),
      if_pos (show (p.headD ' ' == '/') = true by
        simp only [beq_iff_eq]; exact hh)]

/-! The concrete candidates every well-formed URL contributes. -/

lemma mem_build_noHash {u : URLRec} (h : wfURL u = true) :
    String.mk (serializeL { u with hash := [] })
      ∈ buildUrlCandidates (serializeStr u) := by
  refine mem_build_of_mem_cands h (mem_candsParsed_base ?_)
      (serializeL_ne_nil (wf_clear_hash h))
  exact mem_addCand_of_mem _ (mem_addCand_of_mem _ (mem_addCand_self _ _))

lemma mem_build_noQuery {u : URLRec} (h : wfURL u = true) :
    String.mk (serializeL { u with search := [], hash := [] })
      ∈ buildUrlCandidates (serializeStr u) := by
  refine mem_build_of_mem_cands h (mem_candsParsed_base ?_)
      (serializeL_ne_nil (wf_clear_both h))
  exact mem_addCand_of_mem _ (mem_addCand_self _ _)

lemma mem_build_strip {u : URLRec} (h : wfURL u = true) :
    String.mk (stripSlashL (serializeL { u with search := [], hash := [] }))
      ∈ buildUrlCandidates (serializeStr u) := by
  refine mem_build_of_mem_cands h (mem_candsParsed_base (mem_addCand_self _ _)) ?_
  obtain ⟨hs1, -⟩ := wf_parts h
  obtain ⟨c, t, heq, ht⟩ :=
    serializeL_cons (u := { u with search := [], hash := [] }) hs1
  rw [heq]
  exact stripSlashL_cons_ne_nil ht

lemma mem_build_asin {u : URLRec} {a x : List Char} (h : wfURL u = true)
    (ha : isAmazonLike (u.host.map Char.toLower) = true)
    (hscan : asinScan u.path = some a)
    (hx : x ∈ dpFormsL (u.host.map Char.toLower) (a.map Char.toUpper)) :
    String.mk x ∈ buildUrlCandidates (serializeStr u) := by
  refine mem_build_of_mem_cands h (mem_candsParsed_asin ha hscan hx) ?_
  simp only [dpFormsL, List.mem_cons, List.not_mem_nil, or_false] at hx
  rcases hx with rfl | rfl | rfl | rfl <;> simp

lemma mem_build_ref {u : URLRec} (h : wfURL u = true)
    (ha : isAmazonLike (u.host.map Char.toLower) = true)
    (hr : containsL "/ref=".data u.path = true) :
    String.mk (stripSlashL (serializeL { u with
        path := setPathname (splitBeforeL "/ref=".data u.path),
        search := [], hash := [] }))
      ∈ buildUrlCandidates (serializeStr u) := by
  refine mem_build_of_mem_cands h (mem_candsParsed_ref ha hr) ?_
  obtain ⟨hs1, -⟩ := wf_parts h
  obtain ⟨c, t, heq, ht⟩ := serializeL_cons (u := { u with
      path := setPathname (splitBeforeL "/ref=".data u.path),
      search := [], hash := [] }) hs1
  rw [heq]
  exact stripSlashL_cons_ne_nil ht

/-! The variant relations of claim C1. -/

/-- Two parsed URLs that differ only in the fragment. -/
def fragmentVariant (v w : URLRec) : Prop :=
  v.scheme = w.scheme ∧ v.host = w.host ∧ v.path = w.path ∧ v.search = w.search

/-- `v` is `w` with one extra trailing slash on the path. -/
def slashVariant (v w : URLRec) : Prop :=
  v.scheme = w.scheme ∧ v.host = w.host ∧ v.path = w.path ++ ['/'] ∧
  v.search = w.search ∧ v.hash = w.hash

/-- `v` is `w` with an added `/ref=...` tracking segment on an
Amazon-like host. -/
def refVariant (v w : URLRec) : Prop :=
  v.scheme = w.scheme ∧ v.host = w.host ∧ v.search = w.search ∧
  v.hash = w.hash ∧ isAmazonLike (v.host.map Char.toLower) = true ∧
  ((∃ r, v.path = w.path ++ ('/' :: 'r' :: 'e' :: 'f' :: '=' :: r)) ∨
   (w.path = ['/'] ∧ ∃ r, v.path = '/' :: 'r' :: 'e' :: 'f' :: '=' :: r))

lemma refVariant_common {v w : URLRec} (hv : wfURL v = true) (hw : wfURL w = true)
    (h : refVariant v w) :
    ∃ c : String, c ∈ buildUrlCandidates (serializeStr v)
      ∧ c ∈ buildUrlCandidates (serializeStr w) := by
  obtain ⟨hsch, hhost, hsea, hhash, hamz, hpath⟩ := h
  obtain ⟨-, -, -, -, hp1w, hp2w, -, -, -, -, -⟩ := wf_parts hw
  have hpat : ("/ref=".data : List Char) ≠ [] := by decide
  have hov : noSelfOverlap "/ref=".data = true := by decide
  have hamzw : isAmazonLike (w.host.map Char.toLower) = true := by
    rw [← hhost]; exact hamz
  rcases hpath with ⟨r, hp⟩ | ⟨hwp, r, hp⟩
  · have hpform : v.path = w.path ++ ("/ref=".data ++ r) := hp
    have hcv : containsL "/ref=".data v.path = true := by
      rw [hpform]
      exact containsL_append_pat "/ref=".data w.path r hpat
    by_cases hcw : containsL "/ref=".data w.path = true
    · have hsplit : splitBeforeL "/ref=".data v.path
          = splitBeforeL "/ref=".data w.path := by
        rw [hpform]
        exact splitBeforeL_append_of_contains _ hcw
      have hrec : ({ v with
            path := setPathname (splitBeforeL "/ref=".data v.path),
            search := [], hash := [] } : URLRec)
          = { w with
            path := setPathname (splitBeforeL "/ref=".data w.path),
            search := [], hash := [] } := by
        rw [hsplit, hsch, hhost]
      refine ⟨_, mem_build_ref hv hamz hcv, ?_⟩
      rw [hrec]
      exact mem_build_ref hw hamzw hcw
    · have hncw : containsL "/ref=".data w.path = false := by
        simpa using hcw
      have hsplitv : splitBeforeL "/ref=".data v.path = w.path := by
        rw [hpform]
        exact splitBeforeL_boundary r hpat hov hncw
      have hrec : ({ v with
            path := setPathname (splitBeforeL "/ref=".data v.path),
            search := [], hash := [] } : URLRec)
          = { w with search := [], hash := [] } := by
        rw [hsplitv, setPathname_of_slash hp1w hp2w, hsch, hhost]
      refine ⟨_, mem_build_ref hv hamz hcv, ?_⟩
      rw [hrec]
      exact mem_build_strip hw
  · have hpform : v.path = "/ref=".data ++ r := hp
    have hcv : containsL "/ref=".data v.path = true := by
      rw [hpform]
      have := containsL_append_pat "/ref=".data [] r hpat
      simpa using this
    have hsplitv : splitBeforeL "/ref=".data v.path = [] := by
      rw [hpform]
      exact splitBeforeL_startsWith (startsWithL_append_self _ _) hpat
    have hrec : ({ v with
          path := setPathname (splitBeforeL "/ref=".data v.path),
          search := [], hash := [] } : URLRec)
        = { w with search := [], hash := [] } := by
      rw [hsplitv, show setPathname [] = ['/'] from rfl, hsch, hhost, ← hwp]
    refine ⟨_, mem_build_ref hv hamz hcv, ?_⟩
    rw [hrec]
    exact mem_build_strip hw

/-- Claim C1: for every pair of well-formed URLs that differ only by
fragment, by a single trailing slash on the path, or by an added or
removed `/ref=...` tracking path segment on an Amazon-like host, the
candidate lists produced by `buildUrlCandidates` share at least one
common string. -/
theorem claim1_variant_candidate_lists_intersect (v w : URLRec)
    (hv : wfURL v = true) (hw : wfURL w = true)
    (hvar : fragmentVariant v w ∨ slashVariant v w ∨ slashVariant w v
      ∨ refVariant v w ∨ refVariant w v) :
    ∃ c : String, c ∈ buildUrlCandidates (serializeStr v)
      ∧ c ∈ buildUrlCandidates (serializeStr w) := by
  rcases hvar with hfrag | hsl | hsl | href | href
  · obtain ⟨hsch, hhost, hpath, hsea⟩ := hfrag
    refine ⟨_, mem_build_noHash hv, ?_⟩
    have hrec : ({ v with hash := [] } : URLRec) = { w with hash := [] } := by
      rw [hsch, hhost, hpath, hsea]
    rw [hrec]
    exact mem_build_noHash hw
  · obtain ⟨hsch, hhost, hpath, hsea, hhash⟩ := hsl
    have hser : serializeL { v with search := [], hash := [] }
        = serializeL { w with search := [], hash := [] } ++ ['/'] := by
      simp [serializeL, hsch, hhost, hpath]
    refine ⟨_, mem_build_strip hv, ?_⟩
    rw [show stripSlashL (serializeL { v with search := [], hash := [] })
        = serializeL { w with search := [], hash := [] } by
      rw [hser, stripSlashL_append_slash]]
    exact mem_build_noQuery hw
  · obtain ⟨hsch, hhost, hpath, hsea, hhash⟩ := hsl
    have hser : serializeL { w with search := [], hash := [] }
        = serializeL { v with search := [], hash := [] } ++ ['/'] := by
      simp [serializeL, hsch, hhost, hpath]
    refine ⟨_, mem_build_noQuery hv, ?_⟩
    rw [show serializeL { v with search := [], hash := [] }
        = stripSlashL (serializeL { w with search := [], hash := [] }) by
      rw [hser, stripSlashL_append_slash]]
    exact mem_build_strip hw
  · exact refVariant_common hv hw href
  · obtain ⟨c, hcw, hcv⟩ := refVariant_common hw hv href
    exact ⟨c, hcv, hcw⟩

/-- Witness for claim C1 at the spec example: the two inputs
`https://www.amazon.com/dp/B0TESTXXXX/ref=sr_1_1` and
`https://www.amazon.com/dp/B0TESTXXXX` produce intersecting candidate
lists. -/
theorem claim1_witness :
    wfURL ⟨"https".data, "www.amazon.com".data,
      "/dp/B0TESTXXXX/ref=sr_1_1".data, [], []⟩ = true ∧
    wfURL ⟨"https".data, "www.amazon.com".data,
      "/dp/B0TESTXXXX".data, [], []⟩ = true ∧
    ∃ c : String,
      c ∈ buildUrlCandidates (serializeStr ⟨"https".data, "www.amazon.com".data,
        "/dp/B0TESTXXXX/ref=sr_1_1".data, [], []⟩)
      ∧ c ∈ buildUrlCandidates (serializeStr ⟨"https".data, "www.amazon.com".data,
        "/dp/B0TESTXXXX".data, [], []⟩) :=
  ⟨by decide, by decide,
    claim1_variant_candidate_lists_intersect _ _ (by decide) (by decide)
      (Or.inr (Or.inr (Or.inr (Or.inl
        ⟨rfl, rfl, rfl, rfl, by decide, Or.inl ⟨"sr_1_1".data, by decide⟩⟩))))⟩

/-- Claim C6: an input that fails URL parsing yields exactly the trimmed
input as sole candidate (and the empty list when the trimmed input is
empty); the canonicalizer cannot throw. -/
theorem claim6_malformed_input_safe (s : String)
    (hp : parseURLL (trimL s.data) = none) :
    buildUrlCandidates s
      = if trimL s.data = [] then [] else [String.mk (trimL s.data)] := by
  unfold buildUrlCandidates
  rw [candsL_none hp]
  by_cases ht : trimL s.data = []
  · rw [if_pos ht, if_pos ht]
    rfl
  · rw [if_neg ht, if_neg ht]
    simp [List.isEmpty_iff, ht]

/-- Witness for claim C6: canonicalizing `not a url at all` returns
exactly that string. -/
theorem claim6_witness :
    parseURLL (trimL "not a url at all".data) = none ∧
    buildUrlCandidates "not a url at all" = ["not a url at all"] := by
  refine ⟨by decide, ?_⟩
  rw [claim6_malformed_input_safe _ (by decide)]
  decide

/-! Case-insensitivity of the ASIN matcher (claim C5). -/

lemma isDigitC_false_of_gt {c : Char} (h : 57 < c.toNat) : isDigitC c = false := by
  simp only [isDigitC, Bool.and_eq_false_iff]
  right
  simp only [decide_eq_false_iff_not]
  intro hc
  have h9 := le_char_iff_toNat.mp hc
  rw [show ('9' : Char).toNat = 57 from rfl] at h9
  omega

lemma isDigitC_toLower (c : Char) : isDigitC c.toLower = isDigitC c := by
  unfold Char.toLower
  by_cases h : c.toNat ≥ 65 ∧ c.toNat ≤ 90
  · rw [if_pos h]
    have ht : (Char.ofNat (c.toNat + 32)).toNat = c.toNat + 32 :=
      charToNat_ofNat_of_le (by omega)
    rw [isDigitC_false_of_gt (by omega), isDigitC_false_of_gt (by omega)]
  · rw [if_neg h]

lemma isAsinChar_toLower (c : Char) : isAsinChar c.toLower = isAsinChar c := by
  unfold isAsinChar
  rw [isDigitC_toLower, toLower_toLower]

lemma all_congrL {p q : Char → Bool} (h : ∀ c, p c = q c) (l : List Char) :
    l.all p = l.all q := by
  induction l with
  | nil => rfl
  | cons c t ih => simp [List.all_cons, h c, ih]

lemma beq_slash_toLower (c : Char) : (c.toLower == '/') = (c == '/') := by
  unfold Char.toLower
  by_cases h : c.toNat ≥ 65 ∧ c.toNat ≤ 90
  · rw [if_pos h]
    have ht : (Char.ofNat (c.toNat + 32)).toNat = c.toNat + 32 :=
      charToNat_ofNat_of_le (by omega)
    have h1 : (Char.ofNat (c.toNat + 32) == '/') = false := by
      simp only [beq_eq_false_iff_ne, ne_eq]
      intro he
      rw [he] at ht
      revert h
      simp only [show ('/' : Char).toNat = 47 from rfl] at ht
      omega
    have h2 : (c == '/') = false := by
      simp only [beq_eq_false_iff_ne, ne_eq]
      intro he
      rw [he] at h
      revert h
      decide
    rw [h1, h2]
  · rw [if_neg h]

lemma headD_beq_slash_map (l : List Char) :
    ((l.map Char.toLower).headD ' ' == '/') = (l.headD ' ' == '/') := by
  cases l with
  | nil => rfl
  | cons c t =>
    simp only [List.map_cons, List.headD_cons]
    exact beq_slash_toLower c

lemma dropCI_map (pat s : List Char) :
    dropCI pat (s.map Char.toLower)
      = (dropCI pat s).map (List.map Char.toLower) := by
  induction pat generalizing s with
  | nil => rfl
  | cons p ps ih =>
    cases s with
    | nil => rfl
    | cons c t =>
      simp only [List.map_cons, dropCI, toLower_toLower]
      split
      · exact ih t
      · rfl

lemma all_map_toLower (l : List Char) :
    (l.map Char.toLower).all isAsinChar = l.all isAsinChar := by
  induction l with
  | nil => rfl
  | cons c t ih => simp [List.all_cons, isAsinChar_toLower, ih]

lemma isEmpty_mapL (f : Char → Char) (l : List Char) :
    (l.map f).isEmpty = l.isEmpty := by
  cases l <;> rfl

lemma asinTail_map (t : List Char) :
    asinTail (t.map Char.toLower) = (asinTail t).map (List.map Char.toLower) := by
  simp only [asinTail]
  rw [← List.map_take, ← List.map_drop, List.length_map,
      all_map_toLower, isEmpty_mapL, headD_beq_slash_map]
  split <;> rfl

lemma asinAt_map (s : List Char) :
    asinAt (s.map Char.toLower) = (asinAt s).map (List.map Char.toLower) := by
  cases s with
  | nil => rfl
  | cons c rest =>
    simp only [List.map_cons, asinAt]
    have hcs : c.toLower = '/' ↔ c = '/' := by
      have h := beq_slash_toLower c
      constructor <;> intro hx
      · have hb : (c.toLower == '/') = true := by simp [hx]
        rw [h] at hb
        simpa using hb
      · have hb : (c == '/') = true := by simp [hx]
        rw [← h] at hb
        simpa using hb
    by_cases hc : c = '/'
    · rw [if_pos (hcs.mpr hc), if_pos hc, dropCI_map, dropCI_map]
      cases hdp : dropCI "dp/".data rest with
      | some t =>
        dsimp only [Option.map]
        rw [asinTail_map]
        cases hat : asinTail t with
        | some a => rfl
        | none =>
          dsimp only [Option.map]
          cases hgp : dropCI "gp/product/".data rest with
          | some t2 =>
            dsimp only [Option.map]
            exact asinTail_map t2
          | none => rfl
      | none =>
        dsimp only [Option.map]
        cases hgp : dropCI "gp/product/".data rest with
        | some t2 =>
          dsimp only [Option.map]
          exact asinTail_map t2
        | none => rfl
    · rw [if_neg (fun hx => hc (hcs.mp hx)), if_neg hc]
      rfl

lemma asinScan_map (p : List Char) :
    asinScan (p.map Char.toLower) = (asinScan p).map (List.map Char.toLower) := by
  induction p with
  | nil => rfl
  | cons c t ih =>
    simp only [List.map_cons, asinScan]
    rw [show Char.toLower c :: List.map Char.toLower t
        = (c :: t).map Char.toLower from rfl, asinAt_map]
    cases hat : asinAt (c :: t) with
    | some a => rfl
    | none => simpa using ih

lemma map_comp_upper_lower (l : List Char) :
    l.map (Char.toUpper ∘ Char.toLower) = l.map Char.toUpper := by
  induction l with
  | nil => rfl
  | cons c t ih => simp [Function.comp, toUpper_toLower, ih]

lemma map_toUpper_of_map_toLower_eq {a b : List Char}
    (h : a.map Char.toLower = b.map Char.toLower) :
    a.map Char.toUpper = b.map Char.toUpper := by
  have h2 : (a.map Char.toLower).map Char.toUpper
      = (b.map Char.toLower).map Char.toUpper := by rw [h]
  rw [List.map_map, List.map_map, map_comp_upper_lower, map_comp_upper_lower] at h2
  exact h2

/-- Claim C5: on an Amazon-like host, the ASIN matcher is
case-insensitive and normalizes to uppercase: if the matcher finds ASIN
`a` in the path of `u`, then all four canonical `/dp` forms built from
the uppercased ASIN are candidates of `u`, and of any `u'` that differs
from `u` only by letter case in the path, so lowercase and uppercase
ASIN spellings yield identical canonical `/dp` forms. -/
theorem claim5_asin_case_insensitive (u v : URLRec)
    (hu : wfURL u = true) (hv : wfURL v = true)
    (hhost : v.host = u.host)
    (hamz : isAmazonLike (u.host.map Char.toLower) = true)
    (hpath : v.path.map Char.toLower = u.path.map Char.toLower)
    (a : List Char) (ha : asinScan u.path = some a) :
    ∀ f ∈ dpFormsL (u.host.map Char.toLower) (a.map Char.toUpper),
      String.mk f ∈ buildUrlCandidates (serializeStr u)
        ∧ String.mk f ∈ buildUrlCandidates (serializeStr v) := by
  intro f hf
  refine ⟨mem_build_asin hu hamz ha hf, ?_⟩
  have h1 := asinScan_map v.path
  rw [hpath, asinScan_map u.path, ha] at h1
  cases hsc : asinScan v.path with
  | none =>
    rw [hsc] at h1
    dsimp only [Option.map] at h1
    cases h1
  | some b =>
    rw [hsc] at h1
    dsimp only [Option.map] at h1
    have h1x : a.map Char.toLower = b.map Char.toLower := by
      injection h1
    have hupper : b.map Char.toUpper = a.map Char.toUpper :=
      map_toUpper_of_map_toLower_eq h1x.symm
    have hamzv : isAmazonLike (v.host.map Char.toLower) = true := by
      rw [hhost]; exact hamz
    refine mem_build_asin hv hamzv hsc ?_
    rw [hhost, hupper]
    exact hf

/-- Witness for claim C5: `/dp/b0testxxxx` (lowercase) and
`/dp/B0TESTXXXX` (uppercase) on `amazon.com` both yield the canonical
form `https://amazon.com/dp/B0TESTXXXX`. -/
theorem claim5_witness :
    asinScan "/dp/b0testxxxx".data = some "b0testxxxx".data ∧
    ("https://amazon.com/dp/B0TESTXXXX"
        ∈ buildUrlCandidates (serializeStr
          ⟨"https".data, "amazon.com".data, "/dp/b0testxxxx".data, [], []⟩)
      ∧ "https://amazon.com/dp/B0TESTXXXX"
        ∈ buildUrlCandidates (serializeStr
          ⟨"https".data, "amazon.com".data, "/dp/B0TESTXXXX".data, [], []⟩)) :=
  ⟨by decide,
    claim5_asin_case_insensitive
      ⟨"https".data, "amazon.com".data, "/dp/b0testxxxx".data, [], []⟩
      ⟨"https".data, "amazon.com".data, "/dp/B0TESTXXXX".data, [], []⟩
      (by decide) (by decide) rfl (by decide) (by decide)
      "b0testxxxx".data (by decide)
      "https://amazon.com/dp/B0TESTXXXX".data (by decide)⟩

end UrlCanon

namespace Scraper

open UrlCanon (trimL isDigitC isLowerAlpha containsL)

/-- Model of `String.prototype.trim` on `String`. -/
def trimS (s : String) : String := String.mk (trimL s.data)

/-- JSON values as JavaScript sees them after `JSON.parse` / axios
deserialization.  Numbers keep their raw source text: the scraper never
reads a number as a product id, so no float semantics are needed. -/
inductive JsonVal where
  | null
  | bool (b : Bool)
  | num (raw : String)
  | str (s : String)
  | arr (items : List JsonVal)
  | obj (fields : List (String × JsonVal))
deriving Repr

/-- `/^[a-f\d]{24}$/i` -/
def isHex24Char (c : Char) : Bool :=
  isDigitC c || ('a' ≤ c.toLower && c.toLower ≤ 'f')

def is24hex (s : String) : Bool :=
  s.data.length == 24 && s.data.all isHex24Char

/-! An executable model of `JSON.parse` (recursive descent, \uXXXX
escapes not modelled).  The fuel argument only exhibits termination:
`parseJson` passes one unit more than the input length, which exceeds
the recursion depth of any parse. -/

def jws (c : Char) : Bool := c == ' ' || c == '\t' || c == '\n' || c == '\r'

def skipWs (l : List Char) : List Char := l.dropWhile jws

def escChar (c : Char) : Option Char :=
  if c = '"' then some '"'
  else if c = '\\' then some '\\'
  else if c = '/' then some '/'
  else if c = 'b' then some (Char.ofNat 8)
  else if c = 'f' then some (Char.ofNat 12)
  else if c = 'n' then some '\n'
  else if c = 'r' then some '\r'
  else if c = 't' then some '\t'
  else none

def pStr : List Char → Option (List Char × List Char)
  | [] => none
  | '"' :: rest => some ([], rest)
  | '\\' :: c :: rest =>
    (match escChar c with
     | some e => (pStr rest).map (fun p => (e :: p.1, p.2))
     | none => none)
  | c :: rest => (pStr rest).map (fun p => (c :: p.1, p.2))

def numChar (c : Char) : Bool :=
  isDigitC c || c = '-' || c = '+' || c = '.' || c = 'e' || c = 'E'

def validNum (raw : List Char) : Bool :=
  let afterSign := if raw.headD ' ' == '-' then raw.drop 1 else raw
  let intPart := afterSign.takeWhile isDigitC
  let rest1 := afterSign.dropWhile isDigitC
  let intOk := !intPart.isEmpty
    && (intPart.length == 1 || !(intPart.headD ' ' == '0'))
  let fracOk :=
    if rest1.headD ' ' == '.' then !((rest1.drop 1).takeWhile isDigitC).isEmpty
    else true
  let rest2 :=
    if rest1.headD ' ' == '.' then (rest1.drop 1).dropWhile isDigitC else rest1
  let expOk :=
    if rest2.headD ' ' == 'e' || rest2.headD ' ' == 'E' then
      let r := rest2.drop 1
      let r2 := if r.headD ' ' == '+' || r.headD ' ' == '-' then r.drop 1 else r
      !(r2.takeWhile isDigitC).isEmpty
    else true
  let rest3 :=
    if rest2.headD ' ' == 'e' || rest2.headD ' ' == 'E' then
      let r := rest2.drop 1
      let r2 := if r.headD ' ' == '+' || r.headD ' ' == '-' then r.drop 1 else r
      r2.dropWhile isDigitC
    else rest2
  intOk && fracOk && expOk && rest3.isEmpty

def pNum (l : List Char) : Option (List Char × List Char) :=
  let raw := l.takeWhile numChar
  if validNum raw then some (raw, l.dropWhile numChar) else none

/-- Duplicate object keys: the later value wins while the key keeps its
first position, as in a JavaScript object literal. -/
def insertField : List (String × JsonVal) → String → JsonVal → List (String × JsonVal)
  | [], k, v => [(k, v)]
  | (k', v') :: rest, k, v =>
    if k' = k then (k', v) :: rest else (k', v') :: insertField rest k v

mutual

def pVal : Nat → List Char → Option (JsonVal × List Char)
  | 0, _ => none
  | f+1, l =>
    match skipWs l with
    | [] => none
    | 'n' :: 'u' :: 'l' :: 'l' :: rest => some (.null, rest)
    | 't' :: 'r' :: 'u' :: 'e' :: rest => some (.bool true, rest)
    | 'f' :: 'a' :: 'l' :: 's' :: 'e' :: rest => some (.bool false, rest)
    | '"' :: rest => (pStr rest).map (fun p => (.str (String.mk p.1), p.2))
    | '[' :: rest => pArrItems f (skipWs rest) []
    | '{' :: rest => pObjItems f (skipWs rest) []
    | l' => (pNum l').map (fun p => (.num (String.mk p.1), p.2))

def pArrItems : Nat → List Char → List JsonVal → Option (JsonVal × List Char)
  | 0, _, _ => none
  | f+1, l, acc =>
    match l with
    | ']' :: rest => some (.arr acc, rest)
    | _ =>
      match pVal f l with
      | some (v, r) =>
        (match skipWs r with
         | ',' :: r2 => pArrItems f (skipWs r2) (acc ++ [v])
         | ']' :: r2 => some (.arr (acc ++ [v]), r2)
         | _ => none)
      | none => none

def pObjItems : Nat → List Char → List (String × JsonVal) → Option (JsonVal × List Char)
  | 0, _, _ => none
  | f+1, l, acc =>
    match l with
    | '}' :: rest => some (.obj acc, rest)
    | '"' :: rest =>
      (match pStr rest with
       | some (k, r) =>
         (match skipWs r with
          | ':' :: r2 =>
            (match pVal f (skipWs r2) with
             | some (v, r3) =>
               (match skipWs r3 with
                | ',' :: r4 => pObjItems f (skipWs r4) (insertField acc (String.mk k) v)
                | '}' :: r4 => some (.obj (insertField acc (String.mk k) v), r4)
                | _ => none)
             | none => none)
          | _ => none)
       | none => none)
    | _ => none

end

/-- Model of `JSON.parse`: whole-input parse, trailing whitespace only. -/
def parseJson (s : String) : Option JsonVal :=
  match pVal (s.data.length + 1) s.data with
  | some (v, rest) => if (skipWs rest).isEmpty then some v else none
  | none => none

def lookupField : List (String × JsonVal) → String → Option JsonVal
  | [], _ => none
  | (k', v) :: rest, k => if k' = k then some v else lookupField rest k

/-- `pick` from the source: a string value is trimmed, everything else
(absent field included) is the empty string. -/
def pickS : Option JsonVal → String
  | some (.str s) => trimS s
  | _ => ""

/-- JavaScript `||` on strings: the first operand unless it is empty. -/
def orS (a b : String) : String := if a = "" then b else a

mutual

/-- Recursion measure for `extractProductId`: string nodes count their
length so that a value parsed out of a string is smaller than the
string node itself. -/
def jdepth : JsonVal → Nat
  | .str s => s.length + 1
  | .obj fields => jdepthFields fields + 1
  | _ => 1

def jdepthFields : List (String × JsonVal) → Nat
  | [] => 0
  | (_, v) :: rest => max (jdepth v) (jdepthFields rest)

end

/-- `extractProductId` from `src/lib/scraper/index.ts` lines 14-48, with
an explicit fuel argument for the recursion through `JSON.parse`.  The
guard `jdepth w ≤ s.length` holds for every value the parser can return
(each parsed node consumes at least one input character); it is recorded
only to exhibit termination and the fuel-irrelevance lemma below shows
the answer does not depend on the fuel once it covers the measure. -/
def extractPidF : Nat → JsonVal → String
  | 0, _ => ""
  | f+1, v =>
    match v with
    | .str s =>
      let direct := trimS s
      if direct ≠ "" ∧ is24hex direct = true then direct
      else
        (match parseJson s with
         | some w => if jdepth w ≤ s.length then extractPidF f w else ""
         | none => "")
    | .obj fields =>
      let direct := orS (pickS (lookupField fields "productId"))
        (orS (pickS (lookupField fields "productID"))
          (pickS (lookupField fields "id")))
      if direct ≠ "" then direct
      else
        orS (extractPidF f ((lookupField fields "data").getD .null))
          (orS (extractPidF f ((lookupField fields "result").getD .null))
            (extractPidF f ((lookupField fields "payload").getD .null)))
    | _ => ""

def extractProductId (v : JsonVal) : String := extractPidF (jdepth v) v

/-- `/timeout|timed out|exceeded|ECONNABORTED/i` on the error message. -/
def isTimeoutMsg (msg : String) : Bool :=
  let m := msg.data.map Char.toLower
  containsL "timeout".data m || containsL "timed out".data m
    || containsL "exceeded".data m || containsL "econnaborted".data m

/-- The union type `TriggerScrapeResult` of the source. -/
inductive TriggerScrapeResult where
  | okQueued (status : Option Nat)
  | okComplete (status : Option Nat) (productId : String)
  | err (status : Option Nat) (error : String)
deriving DecidableEq, Repr

/-- What the transport layer (axios) produced: a response with a status
and a deserialized body, or a thrown error with a message. -/
inductive AxiosOutcome where
  | response (status : Nat) (data : JsonVal)
  | error (message : String)

/-- `triggerScrapeProduct` from `src/lib/scraper/index.ts` lines 88-133,
as a function of the transport outcome. -/
def triggerScrapeProduct (url : String) (outcome : AxiosOutcome) :
    TriggerScrapeResult :=
  if url = "" then .err none "Missing URL"
  else
    match outcome with
    | .response status data =>
      if 200 ≤ status ∧ status < 300 then
        let productId := extractProductId data
        if productId ≠ "" then .okComplete (some status) productId
        else .okQueued (some status)
      else
        let message :=
          match data with
          | .str s =>
            if trimS s ≠ "" then trimS s
            else "Workflow trigger failed (" ++ toString status ++ ")"
          | _ => "Workflow trigger failed (" ++ toString status ++ ")"
        .err (some status) message
    | .error emsg =>
      if isTimeoutMsg emsg then .okQueued none
      else .err none (if emsg = "" then "Failed to reach workflow" else emsg)

lemma extractPidF_null (f : Nat) : extractPidF f JsonVal.null = "" := by
  cases f <;> rfl

lemma jdepth_pos (v : JsonVal) : 1 ≤ jdepth v := by
  cases v <;> simp [jdepth]

lemma lookupField_depth {fields : List (String × JsonVal)} {k : String}
    {v : JsonVal} (h : lookupField fields k = some v) :
    jdepth v ≤ jdepthFields fields := by
  induction fields with
  | nil => cases h
  | cons kv rest ih =>
    obtain ⟨k', v'⟩ := kv
    simp only [lookupField] at h
    split at h
    · cases h
      simp only [jdepthFields]
      omega
    · have := ih h
      simp only [jdepthFields]
      omega

/-- The fuel of `extractPidF` is irrelevant once it covers the measure:
any sufficient fuel computes `extractProductId`. -/
lemma extractPidF_canonical : ∀ f v, jdepth v ≤ f →
    extractPidF f v = extractProductId v := by
  intro f
  induction f using Nat.strong_induction_on with
  | _ f ih =>
    intro v hv
    cases f with
    | zero => exact absurd hv (by have := jdepth_pos v; omega)
    | succ f' =>
      unfold extractProductId
      cases v with
      | null => rfl
      | bool b => rfl
      | num raw => rfl
      | arr items => rfl
      | str s =>
        show extractPidF (f' + 1) (.str s) = extractPidF (s.length + 1) (.str s)
        simp only [extractPidF]
        by_cases hdir : trimS s ≠ "" ∧ is24hex (trimS s) = true
        · rw [if_pos hdir, if_pos hdir]
        · rw [if_neg hdir, if_neg hdir]
          cases hp : parseJson s with
          | none => rfl
          | some w =>
            dsimp only []
            by_cases hg : jdepth w ≤ s.length
            · rw [if_pos hg, if_pos hg]
              have hsf : s.length ≤ f' := by
                have : jdepth (JsonVal.str s) = s.length + 1 := rfl
                omega
              rw [ih f' (by omega) w (le_trans hg hsf),
                  ih s.length (by omega) w hg]
            · rw [if_neg hg, if_neg hg]
      | obj fields =>
        show extractPidF (f' + 1) (.obj fields)
            = extractPidF (jdepthFields fields + 1) (.obj fields)
        simp only [extractPidF]
        by_cases hdir : orS (pickS (lookupField fields "productId"))
            (orS (pickS (lookupField fields "productID"))
              (pickS (lookupField fields "id"))) ≠ ""
        · rw [if_pos hdir, if_pos hdir]
        · rw [if_neg hdir, if_neg hdir]
          have hfd : jdepthFields fields ≤ f' := by
            have : jdepth (JsonVal.obj fields) = jdepthFields fields + 1 := rfl
            omega
          have hrw : ∀ k : String,
              extractPidF f' ((lookupField fields k).getD .null)
                = extractPidF (jdepthFields fields)
                    ((lookupField fields k).getD .null) := by
            intro k
            cases hk : lookupField fields k with
            | none =>
              simp only [Option.getD]
              rw [extractPidF_null, extractPidF_null]
            | some w =>
              simp only [Option.getD]
              have hw : jdepth w ≤ jdepthFields fields := lookupField_depth hk
              rw [ih f' (by omega) w (le_trans hw hfd),
                  ih (jdepthFields fields) (by omega) w hw]
          rw [hrw "data", hrw "result", hrw "payload"]

/-- JSON shape of the route response of `POST /api/products/scrape`. -/
structure RouteResp where
  status : String
  httpStatus : Nat
  productId : Option String
deriving DecidableEq, Repr

end Scraper

namespace ScrapeRoute

open Scraper

/-- The `POST` handler of `src/unnamed/part_004` lines 8-50 (route
`/api/products/scrape`): `url` is the string taken from the body (empty
when absent or not a string). -/
def POST (url : String) (outcome : AxiosOutcome) : RouteResp :=
  if trimS url = "" then ⟨"failed", 400, none⟩
  else
    match triggerScrapeProduct url outcome with
    | .err _ _ => ⟨"failed", 502, none⟩
    | .okComplete _ pid =>
      if pid ≠ "" then ⟨"complete", 200, some pid⟩ else ⟨"queued", 200, none⟩
    | .okQueued _ => ⟨"queued", 200, none⟩

end ScrapeRoute

namespace Scraper

/-! The claim-side description of "a product identifier is present":
a nonempty (after trimming) string value under key `productId`,
`productID` or `id`, at the top level or nested under `data`, `result`
or `payload`, searched in exactly that precedence order. -/

/-- A nonempty string identifier stored under key `k`. -/
def specKeyId (fields : List (String × JsonVal)) (k : String) : Option String :=
  match lookupField fields k with
  | some (.str s) => if trimS s ≠ "" then some (trimS s) else none
  | _ => none

def orO (a b : Option String) : Option String :=
  match a with
  | some x => some x
  | none => b

/-- Modelled from the claim wording of C9 (fuel as in `extractPidF`). -/
def specFindIdF : Nat → JsonVal → Option String
  | 0, _ => none
  | f+1, v =>
    match v with
    | .obj fields =>
      orO (specKeyId fields "productId")
        (orO (specKeyId fields "productID")
          (orO (specKeyId fields "id")
            (orO (specFindIdF f ((lookupField fields "data").getD .null))
              (orO (specFindIdF f ((lookupField fields "result").getD .null))
                (specFindIdF f ((lookupField fields "payload").getD .null))))))
    | _ => none

/-- The identifier the claim says is "present" in the response body. -/
def specFindId (v : JsonVal) : Option String := specFindIdF (jdepth v) v

mutual

/-- `v` has no string value in a `data`/`result`/`payload` position
(recursively): the structured responses claim C9 quantifies over, where
no step of the search has to re-parse a JSON-encoded string. -/
def noStrNest : JsonVal → Bool
  | .obj fields => noStrNestFields fields
  | _ => true

def noStrNestFields : List (String × JsonVal) → Bool
  | [] => true
  | (k, v) :: rest =>
    (if k = "data" ∨ k = "result" ∨ k = "payload" then
      (match v with
       | .str _ => false
       | _ => noStrNest v)
     else true) && noStrNestFields rest

end

def isStrVal : JsonVal → Bool
  | .str _ => true
  | _ => false

/-- A structured (object-shaped, no string nesting) response body. -/
def structuredResp (v : JsonVal) : Bool := noStrNest v && !isStrVal v

lemma specFindIdF_ne_empty : ∀ f v s, specFindIdF f v = some s → s ≠ "" := by
  intro f
  induction f with
  | zero => intro v s h; cases h
  | succ f ih =>
    intro v s h
    cases v with
    | obj fields =>
      simp only [specFindIdF] at h
      have hkey : ∀ k s', specKeyId fields k = some s' → s' ≠ "" := by
        intro k s' hk
        unfold specKeyId at hk
        split at hk
        · split at hk
          · cases hk
            assumption
          · cases hk
        · cases hk
      revert h
      unfold orO
      split
      · intro h; cases h; exact hkey _ _ (by assumption)
      · split
        · intro h; cases h; exact hkey _ _ (by assumption)
        · split
          · intro h; cases h; exact hkey _ _ (by assumption)
          · split
            · intro h; cases h; exact ih _ _ (by assumption)
            · split
              · intro h; cases h; exact ih _ _ (by assumption)
              · intro h; exact ih _ _ h
    | null => cases h
    | bool b => cases h
    | num raw => cases h
    | str t => cases h
    | arr items => cases h

lemma pickS_eq_specKeyId (fields : List (String × JsonVal)) (k : String) :
    pickS (lookupField fields k) = (specKeyId fields k).getD "" := by
  unfold pickS specKeyId
  cases h : lookupField fields k with
  | none => rfl
  | some w =>
    cases w with
    | str s =>
      dsimp only []
      by_cases ht : trimS s ≠ ""
      · rw [if_pos ht]
        rfl
      · rw [if_neg ht]
        push_neg at ht
        rw [ht]
        rfl
    | null => rfl
    | bool b => rfl
    | num raw => rfl
    | arr items => rfl
    | obj f2 => rfl

lemma orO_getD {x y : Option String} (hx : ∀ s, x = some s → s ≠ "") :
    (orO x y).getD "" = orS (x.getD "") (y.getD "") := by
  cases x with
  | none => simp [orO, orS]
  | some s =>
    have hs := hx s rfl
    simp [orO, orS, hs]

lemma noStrNestFields_lookup {fields : List (String × JsonVal)} {k : String}
    {v : JsonVal} (hn : noStrNestFields fields = true)
    (hk : lookupField fields k = some v)
    (hkey : k = "data" ∨ k = "result" ∨ k = "payload") :
    noStrNest v = true ∧ isStrVal v = false := by
  induction fields with
  | nil => cases hk
  | cons kv rest ih =>
    obtain ⟨k', v'⟩ := kv
    simp only [noStrNestFields, Bool.and_eq_true] at hn
    simp only [lookupField] at hk
    split at hk
    · cases hk
      have hcond := hn.1
      rw [if_pos (by
        rename_i heq
        rw [heq]
        exact hkey)] at hcond
      cases v with
      | str s => simp at hcond
      | null => exact ⟨rfl, rfl⟩
      | bool b => exact ⟨hcond, rfl⟩
      | num raw => exact ⟨hcond, rfl⟩
      | arr items => exact ⟨hcond, rfl⟩
      | obj f2 => exact ⟨hcond, rfl⟩
    · exact ih hn.2 hk

end Scraper

namespace Scraper

lemma specKeyId_ne_empty (fields : List (String × JsonVal)) (k : String) :
    ∀ s, specKeyId fields k = some s → s ≠ "" := by
  intro s hk
  unfold specKeyId at hk
  split at hk
  · split at hk
    · cases hk
      assumption
    · cases hk
  · cases hk

lemma orS_chain (a b c N : String) :
    (if orS a (orS b c) ≠ "" then orS a (orS b c) else N)
      = orS a (orS b (orS c N)) := by
  unfold orS
  by_cases ha : a = "" <;> by_cases hb : b = "" <;> by_cases hc : c = "" <;>
    simp [ha, hb, hc]

lemma specFindIdF_null (f : Nat) : specFindIdF f JsonVal.null = none := by
  cases f <;> rfl

/-- On structured responses the extraction of the source computes
exactly the identifier the claim describes. -/
lemma extract_eq_spec : ∀ f v, noStrNest v = true → isStrVal v = false →
    extractPidF f v = (specFindIdF f v).getD "" := by
  intro f
  induction f with
  | zero => intro v _ _; rfl
  | succ f ih =>
    intro v hn hs
    cases v with
    | str s => simp [isStrVal] at hs
    | null => rfl
    | bool b => rfl
    | num raw => rfl
    | arr items => rfl
    | obj fields =>
      simp only [extractPidF, specFindIdF]
      rw [orO_getD (specKeyId_ne_empty fields "productId"),
          orO_getD (specKeyId_ne_empty fields "productID"),
          orO_getD (specKeyId_ne_empty fields "id"),
          orO_getD (fun s h => specFindIdF_ne_empty f _ s h),
          orO_getD (fun s h => specFindIdF_ne_empty f _ s h),
          ← pickS_eq_specKeyId fields "productId",
          ← pickS_eq_specKeyId fields "productID",
          ← pickS_eq_specKeyId fields "id"]
      have hchild : ∀ k : String, k = "data" ∨ k = "result" ∨ k = "payload" →
          (specFindIdF f ((lookupField fields k).getD .null)).getD ""
            = extractPidF f ((lookupField fields k).getD .null) := by
        intro k hkey
        cases hk : lookupField fields k with
        | none =>
          simp only [Option.getD]
          rw [extractPidF_null, specFindIdF_null]
        | some w =>
          simp only [Option.getD]
          have hnw := noStrNestFields_lookup
            (by simpa [noStrNest] using hn) hk hkey
          exact (ih w hnw.1 hnw.2).symm
      rw [hchild "data" (by tauto), hchild "result" (by tauto),
          hchild "payload" (by tauto)]
      exact orS_chain _ _ _ _

/-- The amended claim-side identifier resolution: the keyed search of
`specFindIdF` extended with the string rule the source applies - a
string resolves to its own trimmed text when that is a 24-character hex
string, else to the identifier resolved from parsing it as JSON
(nothing on a parse failure).  Fuel as in `extractPidF`. -/
def specResolveF : Nat → JsonVal → Option String
  | 0, _ => none
  | f+1, v =>
    match v with
    | .str s =>
      if trimS s ≠ "" ∧ is24hex (trimS s) = true then some (trimS s)
      else
        (match parseJson s with
         | some w => if jdepth w ≤ s.length then specResolveF f w else none
         | none => none)
    | .obj fields =>
      orO (specKeyId fields "productId")
        (orO (specKeyId fields "productID")
          (orO (specKeyId fields "id")
            (orO (specResolveF f ((lookupField fields "data").getD .null))
              (orO (specResolveF f ((lookupField fields "result").getD .null))
                (specResolveF f ((lookupField fields "payload").getD .null))))))
    | _ => none

/-- The identifier the amended claim resolves from the response body. -/
def specResolve (v : JsonVal) : Option String := specResolveF (jdepth v) v

lemma specResolveF_null (f : Nat) : specResolveF f JsonVal.null = none := by
  cases f <;> rfl

lemma specResolveF_ne_empty : ∀ f v s, specResolveF f v = some s → s ≠ "" := by
  intro f
  induction f with
  | zero => intro v s h; cases h
  | succ f ih =>
    intro v s h
    cases v with
    | str t =>
      simp only [specResolveF] at h
      split at h
      · rename_i hcond
        cases h
        exact hcond.1
      · revert h
        cases hp : parseJson t with
        | none =>
          dsimp only []
          intro h
          cases h
        | some w =>
          dsimp only []
          split
          · intro h
            exact ih _ _ h
          · intro h
            cases h
    | obj fields =>
      simp only [specResolveF] at h
      revert h
      unfold orO
      split
      · intro h; cases h; exact specKeyId_ne_empty _ _ _ (by assumption)
      · split
        · intro h; cases h; exact specKeyId_ne_empty _ _ _ (by assumption)
        · split
          · intro h; cases h; exact specKeyId_ne_empty _ _ _ (by assumption)
          · split
            · intro h; cases h; exact ih _ _ (by assumption)
            · split
              · intro h; cases h; exact ih _ _ (by assumption)
              · intro h; exact ih _ _ h
    | null => cases h
    | bool b => cases h
    | num raw => cases h
    | arr items => cases h

/-- The extraction of the source computes, on every body, exactly the
identifier the amended claim resolves (empty string standing for
"none"). -/
lemma extract_eq_specResolve : ∀ f v,
    extractPidF f v = (specResolveF f v).getD "" := by
  intro f
  induction f with
  | zero => intro v; rfl
  | succ f ih =>
    intro v
    cases v with
    | null => rfl
    | bool b => rfl
    | num raw => rfl
    | arr items => rfl
    | str s =>
      show (if trimS s ≠ "" ∧ is24hex (trimS s) = true then trimS s
            else match parseJson s with
                 | some w => if jdepth w ≤ s.length then extractPidF f w else ""
                 | none => "")
          = (if trimS s ≠ "" ∧ is24hex (trimS s) = true then some (trimS s)
             else match parseJson s with
                  | some w => if jdepth w ≤ s.length then specResolveF f w else none
                  | none => none).getD ""
      by_cases hc : trimS s ≠ "" ∧ is24hex (trimS s) = true
      · rw [if_pos hc, if_pos hc]
        rfl
      · rw [if_neg hc, if_neg hc]
        cases hp : parseJson s with
        | none => rfl
        | some w =>
          dsimp only []
          by_cases hd : jdepth w ≤ s.length
          · rw [if_pos hd, if_pos hd]
            exact ih w
          · rw [if_neg hd, if_neg hd]
            rfl
    | obj fields =>
      simp only [extractPidF, specResolveF]
      rw [orO_getD (specKeyId_ne_empty fields "productId"),
          orO_getD (specKeyId_ne_empty fields "productID"),
          orO_getD (specKeyId_ne_empty fields "id"),
          orO_getD (fun s h => specResolveF_ne_empty f _ s h),
          orO_getD (fun s h => specResolveF_ne_empty f _ s h),
          ← pickS_eq_specKeyId fields "productId",
          ← pickS_eq_specKeyId fields "productID",
          ← pickS_eq_specKeyId fields "id"]
      have hchild : ∀ k : String,
          (specResolveF f ((lookupField fields k).getD .null)).getD ""
            = extractPidF f ((lookupField fields k).getD .null) :=
        fun k => (ih ((lookupField fields k).getD .null)).symm
      rw [hchild "data", hchild "result", hchild "payload"]
      exact orS_chain _ _ _ _

lemma extract_str (s : String) :
    extractProductId (.str s)
      = (if trimS s ≠ "" ∧ is24hex (trimS s) = true then trimS s
         else
           match parseJson s with
           | some w => if jdepth w ≤ s.length then extractPidF s.length w else ""
           | none => "") := rfl

lemma trigger_2xx (url : String) (st : Nat) (v : JsonVal) (hurl : url ≠ "")
    (h2xx : 200 ≤ st ∧ st < 300) :
    triggerScrapeProduct url (.response st v)
      = (if extractProductId v ≠ ""
         then .okComplete (some st) (extractProductId v)
         else .okQueued (some st)) := by
  unfold triggerScrapeProduct
  rw [if_neg hurl]
  dsimp only []
  rw [if_pos h2xx]

lemma trigger_error (url msg : String) (hurl : url ≠ "") :
    triggerScrapeProduct url (.error msg)
      = (if isTimeoutMsg msg then .okQueued none
         else .err none (if msg = "" then "Failed to reach workflow" else msg)) := by
  unfold triggerScrapeProduct
  rw [if_neg hurl]

/-- Claim C4: for the fire-and-return scrape trigger, a transport error
whose message matches the timeout pattern (and carries no other error
signal) yields `queued` - never `failed` - both from
`triggerScrapeProduct` and from the route; any other transport error
yields `failed`. -/
theorem claim4_timeout_is_queued (url msg : String) (htrim : trimS url ≠ "") :
    (isTimeoutMsg msg = true →
      triggerScrapeProduct url (.error msg) = .okQueued none
        ∧ ScrapeRoute.POST url (.error msg) = ⟨"queued", 200, none⟩)
    ∧ (isTimeoutMsg msg = false →
      triggerScrapeProduct url (.error msg)
          = .err none (if msg = "" then "Failed to reach workflow" else msg)
        ∧ ScrapeRoute.POST url (.error msg) = ⟨"failed", 502, none⟩) := by
  have hurl : url ≠ "" := fun h => htrim (by rw [h]; rfl)
  constructor
  · intro ht
    have htr := trigger_error url msg hurl
    rw [if_pos ht] at htr
    refine ⟨htr, ?_⟩
    unfold ScrapeRoute.POST
    rw [if_neg htrim, htr]
  · intro hf
    have htr := trigger_error url msg hurl
    rw [if_neg (by simp [hf])] at htr
    refine ⟨htr, ?_⟩
    unfold ScrapeRoute.POST
    rw [if_neg htrim, htr]

/-- Witness for claim C4: an axios timeout message produces `queued`,
a refused connection produces `failed`. -/
theorem claim4_witness :
    trimS "https://example.com/p" ≠ "" ∧
    isTimeoutMsg "timeout of 8000ms exceeded" = true ∧
    triggerScrapeProduct "https://example.com/p"
        (.error "timeout of 8000ms exceeded") = .okQueued none ∧
    isTimeoutMsg "connect ECONNREFUSED" = false ∧
    triggerScrapeProduct "https://example.com/p"
        (.error "connect ECONNREFUSED")
      = .err none "connect ECONNREFUSED" :=
  ⟨by decide, by decide,
    ((claim4_timeout_is_queued "https://example.com/p"
        "timeout of 8000ms exceeded" (by decide)).1 (by decide)).1,
    by decide,
    ((claim4_timeout_is_queued "https://example.com/p"
        "connect ECONNREFUSED" (by decide)).2 (by decide)).1⟩

/-- C9 (counterexample).  The claim promises `queued` whenever the 2xx
body carries no identifier under `productId`/`productID`/`id`, directly
or nested under `data`/`result`/`payload`.  The source re-parses string
values: a body whose `data` field is a bare 24-hex string carries no
such keyed identifier, yet the trigger returns `complete` with that
hex. -/
theorem claim9_counterexample :
    specFindId (JsonVal.obj
        [("data", JsonVal.str "aaaaaaaaaaaaaaaaaaaaaaaa")]) = none
    ∧ triggerScrapeProduct "https://example.com/p"
        (.response 200 (JsonVal.obj
          [("data", JsonVal.str "aaaaaaaaaaaaaaaaaaaaaaaa")]))
      = .okComplete (some 200) "aaaaaaaaaaaaaaaaaaaaaaaa" := by
  refine ⟨?_, ?_⟩ <;> decide

/-- C9 (amended).  For every 2xx response the outcome is determined by
the recursive identifier resolution: a nonempty trimmed string under
key `productId`, `productID` or `id` at the top level, else the first
hit of resolving the values under `data`, `result`, `payload`; a string
body or string value in such a position resolves to its own trimmed
text when that is 24-hex, else through JSON re-parsing.  A resolved id
gives `complete` with that id; no resolution gives `queued`. -/
theorem claim9_identifier_resolution (url : String) (st : Nat) (v : JsonVal)
    (hurl : url ≠ "") (h2xx : 200 ≤ st ∧ st < 300) :
    (∀ pid, specResolve v = some pid →
      triggerScrapeProduct url (.response st v) = .okComplete (some st) pid)
    ∧ (specResolve v = none →
      triggerScrapeProduct url (.response st v) = .okQueued (some st)) := by
  have hex : extractProductId v = (specResolve v).getD "" := by
    unfold extractProductId specResolve
    exact extract_eq_specResolve (jdepth v) v
  constructor
  · intro pid hpid
    have hne : pid ≠ "" := by
      unfold specResolve at hpid
      exact specResolveF_ne_empty _ _ _ hpid
    rw [trigger_2xx url st v hurl h2xx, hex, hpid]
    simp only [Option.getD]
    rw [if_pos hne]
  · intro hnone
    rw [trigger_2xx url st v hurl h2xx, hex, hnone]
    simp

/-- Concrete instance of the amended C9 theorem: a 2xx body whose
`data` field is a padded 24-hex string resolves to that hex and the
trigger completes with it. -/
theorem claim9_witness :
    ("https://example.com/p" : String) ≠ ""
    ∧ (200 ≤ 200 ∧ (200 : Nat) < 300)
    ∧ specResolve (JsonVal.obj
        [("data", JsonVal.str " bcdefabcdefabcdefabcdef1 ")])
      = some "bcdefabcdefabcdefabcdef1"
    ∧ triggerScrapeProduct "https://example.com/p"
        (.response 200 (JsonVal.obj
          [("data", JsonVal.str " bcdefabcdefabcdefabcdef1 ")]))
      = .okComplete (some 200) "bcdefabcdefabcdefabcdef1" :=
  ⟨by decide, by omega, by decide,
    (claim9_identifier_resolution "https://example.com/p" 200
        (JsonVal.obj [("data", JsonVal.str " bcdefabcdefabcdefabcdef1 ")])
        (by decide) (by omega)).1 "bcdefabcdefabcdefabcdef1" (by decide)⟩

/-- Claim C10: a 2xx response whose body is a bare string is accepted as
a product id only when it is exactly a 24-character hexadecimal string
(after trimming) or parses as JSON from which an id is extracted; any
other string body yields `queued`. -/
theorem claim10_bare_string_body (url s : String) (st : Nat)
    (hurl : url ≠ "") (h2xx : 200 ≤ st ∧ st < 300) :
    (∀ pid, triggerScrapeProduct url (.response st (.str s))
        = .okComplete (some st) pid →
      (is24hex (trimS s) = true ∧ pid = trimS s)
        ∨ ∃ w, parseJson s = some w ∧ extractProductId w = pid ∧ pid ≠ "")
    ∧ (is24hex (trimS s) = false →
      (∀ w, parseJson s = some w → extractProductId w = "") →
      triggerScrapeProduct url (.response st (.str s)) = .okQueued (some st)) := by
  constructor
  · intro pid hok
    rw [trigger_2xx url st _ hurl h2xx] at hok
    by_cases hne : extractProductId (.str s) ≠ ""
    · rw [if_pos hne] at hok
      injection hok with h1 h2
      subst h2
      rw [extract_str] at hne ⊢
      by_cases hdir : trimS s ≠ "" ∧ is24hex (trimS s) = true
      · rw [if_pos hdir] at hne ⊢
        exact Or.inl ⟨hdir.2, rfl⟩
      · rw [if_neg hdir] at hne ⊢
        cases hp : parseJson s with
        | none =>
          rw [hp] at hne
          dsimp only [] at hne
          exact absurd rfl hne
        | some w =>
          rw [hp] at hne
          dsimp only [] at hne
          dsimp only []
          by_cases hg : jdepth w ≤ s.length
          · rw [if_pos hg] at hne ⊢
            rw [extractPidF_canonical s.length w hg] at hne ⊢
            exact Or.inr ⟨w, rfl, rfl, hne⟩
          · rw [if_neg hg] at hne
            exact absurd rfl hne
    · rw [if_neg hne] at hok
      cases hok
  · intro hhex hall
    rw [trigger_2xx url st _ hurl h2xx]
    have hempty : extractProductId (.str s) = "" := by
      rw [extract_str]
      rw [if_neg (by simp [hhex])]
      cases hp : parseJson s with
      | none => rfl
      | some w =>
        dsimp only []
        by_cases hg : jdepth w ≤ s.length
        · rw [if_pos hg, extractPidF_canonical s.length w hg]
          exact hall w hp
        · rw [if_neg hg]
    rw [hempty]
    simp

/-- Witness for claim C10: the bare body `hello` is neither hex nor
JSON, so the trigger reports `queued`. -/
theorem claim10_witness :
    is24hex (trimS "hello") = false ∧
    triggerScrapeProduct "https://example.com/p" (.response 200 (.str "hello"))
      = .okQueued (some 200) :=
  ⟨by decide,
    (claim10_bare_string_body "https://example.com/p" "hello" 200
        (by decide) (by omega)).2 (by decide)
      (fun w hw => by
        rw [show parseJson "hello" = none from rfl] at hw
        cases hw)⟩

end Scraper

namespace Reports

/-- The three physical shapes the report key `_id` has been written in
by the external workflow: a real ObjectId, a plain string, or an
embedded `$oid` document. -/
inductive MongoId where
  | oid (s : String)
  | strId (s : String)
  | ejson (s : String)
deriving DecidableEq, Repr

/-- An analyzed-report document (only the fields the routes query). -/
structure RDoc where
  mid : MongoId
  productId : Option String
  productUrl : Option String
  createdAt : Nat
deriving DecidableEq, Repr

/-- `mongoose.isValidObjectId` for the 24-hex form the app uses. -/
def isValidObjectId (s : String) : Bool :=
  s.data.length == 24 && s.data.all Scraper.isHex24Char

/-- The body of the `for (const col of collections)` loop in
`findAnalyzedReportAcrossDbs` (`src/unnamed/part_002` lines 84-109):
ObjectId probe, string probe, embedded `$oid` probe, then - still inside
the same collection - the optional `productUrl` probe. -/
def probeCollection (id : String) (productUrl : Option String)
    (col : List RDoc) : Option RDoc :=
  match (if isValidObjectId id then
      col.find? (fun d => d.mid == .oid id) else none) with
  | some d => some d
  | none =>
    match col.find? (fun d => d.mid == .strId id) with
    | some d => some d
    | none =>
      match col.find? (fun d => d.mid == .ejson id) with
      | some d => some d
      | none =>
        match productUrl with
        | some u => col.find? (fun d => d.productUrl == some u)
        | none => none

/-- The candidate storage locations, in construction order.  Each
`useDb` try-block and the products-db fallback contributes its pair of
case-variant collections when available; the dedup keys in the source
are pairwise distinct string literals, so the `seen` set never removes
an entry. -/
structure ReportStores where
  modelCol : List RDoc
  analyzedLowerDb : Option (List RDoc × List RDoc)
  analyzedUpperDb : Option (List RDoc × List RDoc)
  productsDb : Option (List RDoc × List RDoc)

def collectionList (env : ReportStores) : List (List RDoc) :=
  [env.modelCol]
    ++ (match env.analyzedLowerDb with
        | some ab => [ab.1, ab.2]
        | none => [])
    ++ (match env.analyzedUpperDb with
        | some ab => [ab.1, ab.2]
        | none => [])
    ++ (match env.productsDb with
        | some ab => [ab.1, ab.2]
        | none => [])

def scanCollections (id : String) (productUrl : Option String) :
    List (List RDoc) → Option RDoc
  | [] => none
  | col :: rest =>
    match probeCollection id productUrl col with
    | some d => some d
    | none => scanCollections id productUrl rest

/-- `findAnalyzedReportAcrossDbs` from `src/unnamed/part_002` lines
42-112. -/
def findAnalyzedReportAcrossDbs (env : ReportStores) (id : String)
    (productUrl : Option String) : Option RDoc :=
  scanCollections id productUrl (collectionList env)

/-- `findOne(query).sort({createdAt: -1})`: the earliest maximum of
`createdAt` among the matches (Mongo keeps equal keys stable). -/
def mostRecent (p : RDoc → Bool) (col : List RDoc) : Option RDoc :=
  (col.filter p).foldl (fun acc d =>
    match acc with
    | none => some d
    | some b => if d.createdAt > b.createdAt then some d else some b) none

/-- The embedded analytics sub-record of a product. -/
structure AnalyticsSub where
  status : String
  requestedAt : Option Nat
  completedAt : Option Nat
  error : Option String
deriving DecidableEq, Repr

/-- The fields of the product document the analytics routes read. -/
structure PRec where
  url : Option String
  analytics : Option AnalyticsSub
deriving DecidableEq, Repr

/-- Outcome of the poll: 404, an external report wrapped as
`{status: "complete", data: doc}`, or the embedded sub-record. -/
inductive PollResp where
  | notFound
  | complete (d : RDoc)
  | embedded (a : AnalyticsSub)
deriving DecidableEq, Repr

end Reports

namespace AnalyticsRoute

open Reports

/-- The `GET` handler of `src/unnamed/part_002` lines 114-212
(route `/api/products/:id/analytics`), with the product-store lookup
supplied as `product?`. -/
def GET (env : ReportStores) (id : String) (product? : Option PRec) :
    PollResp :=
  match product? with
  | none => .notFound
  | some p =>
    match findAnalyzedReportAcrossDbs env id p.url with
    | some d => .complete d
    | none =>
      match mostRecent (fun d => d.productId == some id) env.modelCol with
      | some d => .complete d
      | none =>
        match p.url with
        | some u =>
          (match mostRecent (fun d => d.productUrl == some u) env.modelCol with
           | some d => .complete d
           | none => .embedded (p.analytics.getD ⟨"idle", none, none, none⟩))
        | none => .embedded (p.analytics.getD ⟨"idle", none, none, none⟩)

end AnalyticsRoute

namespace Reports

/-- Claim-side id-only probe of one location: ObjectId-typed, then
string-typed, then the embedded `$oid` shape - no `productUrl` probe. -/
def probeById (id : String) (col : List RDoc) : Option RDoc :=
  match (if isValidObjectId id then
      col.find? (fun d => d.mid == .oid id) else none) with
  | some d => some d
  | none =>
    match col.find? (fun d => d.mid == .strId id) with
    | some d => some d
    | none => col.find? (fun d => d.mid == .ejson id)

def scanById (id : String) : List (List RDoc) → Option RDoc
  | [] => none
  | col :: rest =>
    match probeById id col with
    | some d => some d
    | none => scanById id rest

/-- The resolution order exactly as claim C2 states it: first a report
stored under the product own id (the three id shapes) across the known
storage locations, first hit wins; else the most recently created
`productId`-field match; else the most recently created `productUrl`
match; else the embedded sub-record. -/
def specPollClaim (env : ReportStores) (id : String)
    (product? : Option PRec) : PollResp :=
  match product? with
  | none => .notFound
  | some p =>
    match scanById id (collectionList env) with
    | some d => .complete d
    | none =>
      match mostRecent (fun d => d.productId == some id) env.modelCol with
      | some d => .complete d
      | none =>
        match p.url with
        | some u =>
          (match mostRecent (fun d => d.productUrl == some u) env.modelCol with
           | some d => .complete d
           | none => .embedded (p.analytics.getD ⟨"idle", none, none, none⟩))
        | none => .embedded (p.analytics.getD ⟨"idle", none, none, none⟩)

/-- The amended resolution order: within each storage location the three
id shapes are probed and then, before moving to the next location, a
`productUrl` match; afterwards the `productId`-field and `productUrl`
fallbacks on the model collection, then the embedded sub-record. -/
def probeAmended (id : String) (productUrl : Option String)
    (col : List RDoc) : Option RDoc :=
  match probeById id col with
  | some d => some d
  | none =>
    match productUrl with
    | some u => col.find? (fun d => d.productUrl == some u)
    | none => none

def scanAmended (id : String) (productUrl : Option String) :
    List (List RDoc) → Option RDoc
  | [] => none
  | col :: rest =>
    match probeAmended id productUrl col with
    | some d => some d
    | none => scanAmended id productUrl rest

def specPollAmended (env : ReportStores) (id : String)
    (product? : Option PRec) : PollResp :=
  match product? with
  | none => .notFound
  | some p =>
    match scanAmended id p.url (collectionList env) with
    | some d => .complete d
    | none =>
      match mostRecent (fun d => d.productId == some id) env.modelCol with
      | some d => .complete d
      | none =>
        match p.url with
        | some u =>
          (match mostRecent (fun d => d.productUrl == some u) env.modelCol with
           | some d => .complete d
           | none => .embedded (p.analytics.getD ⟨"idle", none, none, none⟩))
        | none => .embedded (p.analytics.getD ⟨"idle", none, none, none⟩)

lemma probeCollection_eq_amended (id : String) (productUrl : Option String)
    (col : List RDoc) :
    probeCollection id productUrl col = probeAmended id productUrl col := by
  unfold probeCollection probeAmended probeById
  cases hoid : (if isValidObjectId id then
      col.find? (fun d => d.mid == .oid id) else none) with
  | some d => rfl
  | none =>
    cases hstr : col.find? (fun d => d.mid == .strId id) with
    | some d => rfl
    | none =>
      cases hej : col.find? (fun d => d.mid == .ejson id) with
      | some d => rfl
      | none => rfl

lemma scanCollections_eq_amended (id : String) (productUrl : Option String) :
    ∀ cols, scanCollections id productUrl cols = scanAmended id productUrl cols := by
  intro cols
  induction cols with
  | nil => rfl
  | cons col rest ih =>
    simp only [scanCollections, scanAmended, probeCollection_eq_amended]
    cases probeAmended id productUrl col with
    | some d => rfl
    | none => exact ih

end Reports

namespace AnalyticsRoute

open Reports

/-- `DEFAULT_POLL_SHOULD_RETRIGGER_AFTER_MS` (10 minutes). -/
def freshWindowMs : Nat := 10 * 60 * 1000

/-- The response bodies the trigger route can return. -/
inductive TrigStatus where
  | notFound
  | completeNoRetrigger
  | pendingNoRetrigger
  | pendingRetriggered
deriving DecidableEq, Repr

/-- Result of one trigger call: the response, whether the external
webhook was dispatched, and the new embedded sub-record when the
handler wrote one. -/
structure TrigResult where
  resp : TrigStatus
  dispatched : Bool
  updated : Option AnalyticsSub
deriving DecidableEq, Repr

/-- `isFreshPending` of the source: the embedded sub-record is pending
and was requested within the freshness window (an unparsable
`requestedAt` reads as absent). -/
def isFreshPending (a? : Option AnalyticsSub) (now : Nat) : Bool :=
  match a? with
  | some a =>
    a.status == "pending" &&
      (match a.requestedAt with
       | some t => decide (now - t < freshWindowMs)
       | none => false)
  | none => false

/-- The `POST` handler of `src/unnamed/part_002` lines 214-326
(route `/api/products/:id/analytics`): the report-existence check runs
only without `force`; a missing webhook URL short-circuits to a poll-only
answer before the freshness check; otherwise a fresh pending sub-record
suppresses the dispatch, and the remaining case marks the product
pending and fires the webhook. -/
def POST (env : ReportStores) (id : String) (force : Bool)
    (product? : Option PRec) (webhookConfigured : Bool) (now : Nat) :
    TrigResult :=
  match product? with
  | none => ⟨.notFound, false, none⟩
  | some p =>
    let existing :=
      if !force then
        (findAnalyzedReportAcrossDbs env id p.url).isSome
          || (env.modelCol.find? (fun d => d.productId == some id)).isSome
      else false
    if existing then ⟨.completeNoRetrigger, false, none⟩
    else if !webhookConfigured then ⟨.pendingNoRetrigger, false, none⟩
    else if !force && isFreshPending p.analytics now then
      ⟨.pendingNoRetrigger, false, none⟩
    else ⟨.pendingRetriggered, true, some ⟨"pending", some now, none, none⟩⟩

lemma POST_noforce (env : ReportStores) (id : String) (p : PRec)
    (webhook : Bool) (now : Nat) :
    POST env id false (some p) webhook now
      = (if ((findAnalyzedReportAcrossDbs env id p.url).isSome
            || (env.modelCol.find? (fun d => d.productId == some id)).isSome)
          then ⟨.completeNoRetrigger, false, none⟩
         else if !webhook then ⟨.pendingNoRetrigger, false, none⟩
         else if isFreshPending p.analytics now then
           ⟨.pendingNoRetrigger, false, none⟩
         else ⟨.pendingRetriggered, true, some ⟨"pending", some now, none, none⟩⟩) := by
  unfold POST
  dsimp only []
  rfl

end AnalyticsRoute

namespace AnalyticsRoute

/-- C2 (counterexample).  The claim states that the poll consults every
storage location for an id-shaped `_id` match before falling back to any
`productUrl` match.  In the source the `productUrl` probe sits inside the
per-collection loop of `findAnalyzedReportAcrossDbs`, so a `productUrl`
match in an earlier location beats an id match in a later one: with a
url-matching document in the model collection and an ObjectId-keyed
document in the analyzed-reports database, the route returns the former
while the claimed order returns the latter. -/
theorem claim2_counterexample :
    GET
        ⟨[⟨.strId "other", none, some "https://example.com/prod", 1⟩],
          some ([⟨.oid "aaaaaaaaaaaaaaaaaaaaaaaa", none, none, 2⟩], []),
          none, none⟩
        "aaaaaaaaaaaaaaaaaaaaaaaa"
        (some ⟨some "https://example.com/prod", none⟩)
      = .complete ⟨.strId "other", none, some "https://example.com/prod", 1⟩
    ∧ Reports.specPollClaim
        ⟨[⟨.strId "other", none, some "https://example.com/prod", 1⟩],
          some ([⟨.oid "aaaaaaaaaaaaaaaaaaaaaaaa", none, none, 2⟩], []),
          none, none⟩
        "aaaaaaaaaaaaaaaaaaaaaaaa"
        (some ⟨some "https://example.com/prod", none⟩)
      = .complete ⟨.oid "aaaaaaaaaaaaaaaaaaaaaaaa", none, none, 2⟩
    ∧ (⟨.strId "other", none, some "https://example.com/prod", 1⟩ : Reports.RDoc)
      ≠ ⟨.oid "aaaaaaaaaaaaaaaaaaaaaaaa", none, none, 2⟩ := by
  refine ⟨?_, ?_, ?_⟩ <;> decide

/-- C2 (amended).  The poll resolves in this order: 404 without a
product; else the first hit of a scan that, within each storage location
in construction order, probes the three id shapes and then a
`productUrl` match before moving on; else the most recently created
`productId`-field match on the model collection; else the most recently
created `productUrl` match there; else the embedded sub-record
(defaulting to idle). -/
theorem claim2_poll_resolution_order (env : Reports.ReportStores)
    (id : String) (product? : Option Reports.PRec) :
    GET env id product? = Reports.specPollAmended env id product? := by
  unfold GET Reports.specPollAmended Reports.findAnalyzedReportAcrossDbs
  cases product? with
  | none => rfl
  | some p =>
    dsimp only []
    rw [Reports.scanCollections_eq_amended]

end AnalyticsRoute

namespace AnalyticsRoute

/-- C3.  If a trigger without `force` dispatched the webhook at time
`t0`, then a second trigger without `force` at any `t1` within the
freshness window - against the product as the first call left it -
answers pending without retriggering, and the two calls dispatch the
webhook exactly once in total. -/
theorem claim3_fresh_pending_no_redispatch
    (env : Reports.ReportStores) (id : String) (p : Reports.PRec)
    (t0 t1 : Nat)
    (h1 : (POST env id false (some p) true t0).dispatched = true)
    (ht : t1 - t0 < freshWindowMs) :
    POST env id false
        (some ⟨p.url, (POST env id false (some p) true t0).updated⟩) true t1
      = ⟨.pendingNoRetrigger, false, none⟩
    ∧ (if (POST env id false (some p) true t0).dispatched then 1 else 0)
      + (if (POST env id false
            (some ⟨p.url, (POST env id false (some p) true t0).updated⟩)
            true t1).dispatched then 1 else 0) = 1 := by
  cases hE : ((Reports.findAnalyzedReportAcrossDbs env id p.url).isSome
      || (env.modelCol.find? (fun d => d.productId == some id)).isSome) with
  | true =>
    rw [POST_noforce, if_pos hE] at h1
    simp at h1
  | false =>
    cases hf : isFreshPending p.analytics t0 with
    | true =>
      rw [POST_noforce, if_neg (by simp [hE]), if_neg (by decide),
        if_pos hf] at h1
      simp at h1
    | false =>
      have hr1 : POST env id false (some p) true t0
          = ⟨.pendingRetriggered, true, some ⟨"pending", some t0, none, none⟩⟩ := by
        rw [POST_noforce, if_neg (by simp [hE]), if_neg (by decide),
          if_neg (by simp [hf])]
      have hfresh : isFreshPending
          (some (⟨"pending", some t0, none, none⟩ : Reports.AnalyticsSub)) t1
          = true := by
        unfold isFreshPending
        dsimp only []
        rw [decide_eq_true ht]
        decide
      have hr2 : POST env id false
          (some ⟨p.url, some ⟨"pending", some t0, none, none⟩⟩) true t1
          = ⟨.pendingNoRetrigger, false, none⟩ := by
        rw [POST_noforce]
        dsimp only []
        rw [if_neg (by simp [hE]), if_neg (by decide), if_pos hfresh]
      refine ⟨?_, ?_⟩
      · rw [hr1]
        dsimp only []
        exact hr2
      · rw [hr1]
        dsimp only []
        rw [hr2]
        decide

/-- Concrete instance of the C3 theorem: an empty store, a product with
no embedded sub-record, a first trigger at time 0 and a second at
time 1. -/
theorem claim3_witness :
    (POST ⟨[], none, none, none⟩ "x" false (some ⟨none, none⟩) true 0).dispatched
      = true
    ∧ (1 : Nat) - 0 < freshWindowMs
    ∧ (POST ⟨[], none, none, none⟩ "x" false
          (some ⟨none, (POST ⟨[], none, none, none⟩ "x" false
              (some ⟨none, none⟩) true 0).updated⟩) true 1
        = ⟨.pendingNoRetrigger, false, none⟩
      ∧ (if (POST ⟨[], none, none, none⟩ "x" false
            (some ⟨none, none⟩) true 0).dispatched then 1 else 0)
        + (if (POST ⟨[], none, none, none⟩ "x" false
              (some ⟨none, (POST ⟨[], none, none, none⟩ "x" false
                  (some ⟨none, none⟩) true 0).updated⟩)
              true 1).dispatched then 1 else 0) = 1) :=
  ⟨by decide, by decide,
    claim3_fresh_pending_no_redispatch ⟨[], none, none, none⟩ "x" ⟨none, none⟩
      0 1 (by decide) (by decide)⟩

end AnalyticsRoute

namespace ReportCallback

open Scraper

/-- JavaScript truthiness of a parsed JSON value.  A JSON number is
falsy exactly when its mantissa has no nonzero digit (JSON cannot
produce NaN), objects and arrays are always truthy. -/
def jsTruthy : JsonVal → Bool
  | .null => false
  | .bool b => b
  | .num raw =>
    (raw.data.takeWhile (fun c => c != 'e' && c != 'E')).any
      (fun c => '1' ≤ c && c ≤ '9')
  | .str s => !s.isEmpty
  | .arr _ => true
  | .obj _ => true

/-- `typeof v === "object"` for a parsed, non-null JSON value. -/
def isObjType : JsonVal → Bool
  | .obj _ => true
  | .arr _ => true
  | _ => false

/-- Property access `v.analytics_payload`: a named field exists only on
objects; on arrays and primitives it reads as absent (undefined). -/
def getAnalyticsPayload : JsonVal → Option JsonVal
  | .obj fields => lookupField fields "analytics_payload"
  | _ => none

/-- The callback request body (`Payload` in `src/unnamed/part_005`),
after `req.json()`; a parse failure is the all-absent body, matching
the `.catch(() => ({}))` fallback. -/
structure CallbackBody where
  productId : Option String
  status : Option String
  error : Option String
  data : Option JsonVal
deriving Repr

/-- `isFailed` of the source: status literally "failed", or a truthy
`error` string. -/
def isFailedBody (body : CallbackBody) : Bool :=
  body.status == some "failed"
    || (match body.error with
        | some e => !e.isEmpty
        | none => false)

/-- The payload the receiver upserts into the analyzed-report store for
a non-failed callback, when any: `raw` is `body.data ?? {}`, unwrapped
through a truthy `analytics_payload` field, and kept only when the
result is a truthy object. -/
def upsertPayload (data? : Option JsonVal) : Option JsonVal :=
  let raw : JsonVal :=
    match data? with
    | none => .obj []
    | some .null => .obj []
    | some v => v
  let payload : JsonVal :=
    if jsTruthy raw && isObjType raw
        && (match getAnalyticsPayload raw with
            | some v => jsTruthy v
            | none => false) then
      (getAnalyticsPayload raw).getD .null
    else raw
  if jsTruthy payload && isObjType payload then some payload else none

/-- Observable outcome of one callback: HTTP status, whether the
product document was updated, and whether the analyzed-report store
was written. -/
structure CBResult where
  httpStatus : Nat
  productWritten : Bool
  reportUpserted : Bool
deriving DecidableEq, Repr

/-- The `POST` handler of `src/unnamed/part_005` (route
`/api/products/report-callback`): secret gate, missing/blank productId
gate, then - before any product lookup - the report upsert for
non-failed callbacks (the `AnalyzedReport` schema keys `productId` as a
string, so that write never casts), and finally
`Product.updateOne({_id: productId})`.  The product schema's `_id` is an
ObjectId, so a productId that is not a 24-character hex string makes the
update reject with a CastError that the handler's catch turns into a
500; a castable id that matches no document gives `matchedCount = 0`
and a 404.  `secret = ""` models an unconfigured secret; `products`
lists the stored product ids. -/
def POST (secret : String) (header : Option String)
    (body : CallbackBody) (products : List String) : CBResult :=
  if secret != "" && header.getD "" != secret then ⟨401, false, false⟩
  else
    match body.productId with
    | none => ⟨400, false, false⟩
    | some s =>
      if trimS s == "" then ⟨400, false, false⟩
      else
        if Reports.isValidObjectId (trimS s) then
          if products.contains (trimS s) then
            ⟨200, true, !isFailedBody body && (upsertPayload body.data).isSome⟩
          else
            ⟨404, false, !isFailedBody body && (upsertPayload body.data).isSome⟩
        else
          ⟨500, false, !isFailedBody body && (upsertPayload body.data).isSome⟩

/-- C8.  With a secret configured, a wrong or missing `x-n8n-secret`
header is rejected with 401 and nothing is read or written. -/
theorem claim8_secret_rejected (secret : String) (header : Option String)
    (body : CallbackBody) (products : List String)
    (hs : secret ≠ "") (hh : header.getD "" ≠ secret) :
    POST secret header body products = ⟨401, false, false⟩ := by
  have hc : (secret != "" && header.getD "" != secret) = true := by
    simp only [Bool.and_eq_true, bne_iff_ne, ne_eq]
    exact ⟨hs, hh⟩
  unfold POST
  rw [if_pos hc]

/-- Concrete instance of the C8 theorem: secret "s", header "t". -/
theorem claim8_witness :
    "s" ≠ "" ∧ (some "t" : Option String).getD "" ≠ "s"
    ∧ POST "s" (some "t") ⟨some "x", none, none, none⟩ ["x"]
      = ⟨401, false, false⟩ :=
  ⟨by decide, by decide,
    claim8_secret_rejected "s" (some "t") ⟨some "x", none, none, none⟩ ["x"]
      (by decide) (by decide)⟩

/-- C7 (counterexample).  The claim states that a callback whose
productId matches no stored product causes no state change.  In the
source the analyzed-report upsert runs before the product-existence
check, so a success callback for an unknown (castable) product id still
writes the report store even though the response is 404. -/
theorem claim7_counterexample :
    (POST "" none ⟨some "bbbbbbbbbbbbbbbbbbbbbbbb", none, none,
        some (.obj [("a", .str "b")])⟩ []).httpStatus = 404
    ∧ (POST "" none ⟨some "bbbbbbbbbbbbbbbbbbbbbbbb", none, none,
        some (.obj [("a", .str "b")])⟩ []).reportUpserted = true := by
  refine ⟨?_, ?_⟩ <;> decide

/-- C7 (amended).  A callback that passes the secret and productId
gates but matches no stored product never writes the product document,
yet the analyzed-report store is written exactly when the callback is
non-failed and its payload is a truthy object: that upsert runs before
the product update.  The response is 404 when the unknown id casts to
an ObjectId (24-hex) and 500 when the cast itself fails. -/
theorem claim7_unmatched_no_product_write (secret : String)
    (header : Option String) (body : CallbackBody) (products : List String)
    (s : String)
    (hauth : secret = "" ∨ header.getD "" = secret)
    (hpid : body.productId = some s)
    (hne : trimS s ≠ "")
    (hmiss : products.contains (trimS s) = false) :
    POST secret header body products
      = ⟨if Reports.isValidObjectId (trimS s) then 404 else 500, false,
          !isFailedBody body && (upsertPayload body.data).isSome⟩ := by
  have hc : (secret != "" && header.getD "" != secret) = false := by
    rcases hauth with h | h
    · simp [h]
    · simp [h]
  unfold POST
  rw [if_neg (by simp [hc]), hpid]
  dsimp only []
  rw [if_neg (by simp [hne])]
  by_cases hv : Reports.isValidObjectId (trimS s) = true
  · rw [if_pos hv, if_neg (by simp only [hmiss]; exact Bool.false_ne_true),
      if_pos hv]
  · rw [if_neg hv, if_neg hv]

/-- Concrete instance of the amended C7 theorem: no secret, a success
callback for an unknown 24-hex id with no data against a store holding
a different id; the report store is still written (the upsert payload
defaults to the empty object, which is a truthy object) and the
response is 404. -/
theorem claim7_witness :
    (("" : String) = "" ∨ (none : Option String).getD "" = "")
    ∧ (⟨some "cccccccccccccccccccccccc", none, none, none⟩ :
        CallbackBody).productId = some "cccccccccccccccccccccccc"
    ∧ trimS "cccccccccccccccccccccccc" ≠ ""
    ∧ ["dddddddddddddddddddddddd"].contains
        (trimS "cccccccccccccccccccccccc") = false
    ∧ POST "" none ⟨some "cccccccccccccccccccccccc", none, none, none⟩
        ["dddddddddddddddddddddddd"]
      = ⟨if Reports.isValidObjectId (trimS "cccccccccccccccccccccccc")
           then 404 else 500,
          false,
          !isFailedBody ⟨some "cccccccccccccccccccccccc", none, none, none⟩
            && (upsertPayload none).isSome⟩ :=
  ⟨Or.inl rfl, rfl, by decide, by decide,
    claim7_unmatched_no_product_write "" none
      ⟨some "cccccccccccccccccccccccc", none, none, none⟩
      ["dddddddddddddddddddddddd"] "cccccccccccccccccccccccc"
      (Or.inl rfl) rfl (by decide) (by decide)⟩

end ReportCallback
